import Mathlib

/-!
# Image-processing primitives: convolution, Sobel gradients, Canny

A shallow embedding of `src/src/my_algos/filters.cpp`.

* `Mat α` stands for a `cv::Mat` holding samples of type `α`: a row count, a column count, a
  channel count and a total sample function indexed by `int` row and column.  A read outside
  `rows × cols` returns whatever the sample function holds there (zero for a buffer made by
  `Mat.zeros` and only written in range).
* C++ `for` loops over `int` ranges are folds (`forLoop`), so every function below performs the
  same sequence of reads and writes as the source.
* Floating-point samples are taken in exact arithmetic over a commutative ring `α` (an ordered
  field for `canny`); an 8-bit sample is a natural number.  The library calls `sqrt`, `atan2`,
  `lround`, the constant `M_PI_4` and the saturating conversion to `uchar` are fields of
  `FloatOps`; `pow(x, 2.)` is `x ^ 2`.
* A failed `assert` (or a throwing `std::vector::at`) is the result `none`.
* The kernel `kernels::GAUSSION_3x3` lives in `my_algos/basics.h`, outside the sources at hand;
  `canny` takes it as a parameter.
-/

namespace filters

/-! ## Buffers and loops -/

/-- Grid of samples (`cv::Mat`). -/
structure Mat (α : Type) where
  rows : Nat
  cols : Nat
  channels : Nat
  px : Int → Int → α

namespace Mat

variable {α β : Type}

/-- Typed element read `m.at<T>(i, j)`. -/
def get (m : Mat α) (i j : Int) : α := m.px i j

/-- Typed element write `m.at<T>(i, j) = v`. -/
def set (m : Mat α) (i j : Int) (v : α) : Mat α :=
  { m with px := fun a b => if a = i ∧ b = j then v else m.px a b }

/-- Single-channel zero buffer, `cv::Mat::zeros(rows, cols, type)`. -/
def zeros [Zero α] (rows cols : Nat) : Mat α :=
  { rows := rows, cols := cols, channels := 1, px := fun _ _ => 0 }

/-- Sample-wise conversion `m.convertTo(dst, type)`. -/
def convertTo (f : α → β) (m : Mat α) : Mat β :=
  { rows := m.rows, cols := m.cols, channels := m.channels, px := fun a b => f (m.px a b) }

end Mat

/-- The loop `for (int k = lo; k < hi; ++k) s = body(k, s)`. -/
def forLoop {σ : Type} (lo hi : Int) (body : Int → σ → σ) (s : σ) : σ :=
  (List.range (hi - lo).toNat).foldl (fun s (k : Nat) => body (lo + (k : Int)) s) s

/-- The same loop with a body that may abort (a failed `assert`, a throwing `.at`). -/
def forLoopM {σ : Type} (lo hi : Int) (body : Int → σ → Option σ) (s : σ) : Option σ :=
  (List.range (hi - lo).toNat).foldlM (fun s (k : Nat) => body (lo + (k : Int)) s) s

/-! ## Convolution -/

/-- Kernel weights: `std::vector<std::vector<double>>`. -/
abbrev Kernel (α : Type) := List (List α)

/-- Unchecked double indexing `kernel[a][b]`. -/
def Kernel.get {α : Type} [Zero α] (kernel : Kernel α) (a b : Int) : α :=
  (kernel.getD a.toNat []).getD b.toNat 0

/-- Filter the input gray image with kernel; `toF` is the conversion of a source sample to
floating point.  `none` is a failed assertion. -/
def conv2D {α β : Type} [CommRing α] (toF : β → α) (src : Mat β) (kernel : Kernel α) :
    Option (Mat α) :=
  if src.channels ≠ 1 then none
  else if ¬ (kernel.length % 2 = 1 ∧ (kernel.getD 0 []).length % 2 = 1) then none
  else
    let src_32FC1 : Mat α := src.convertTo toF
    let r1 : Int := ((kernel.length / 2 : Nat) : Int)
    let r2 : Int := (((kernel.getD 0 []).length / 2 : Nat) : Int)
    let dst : Mat α := Mat.zeros src.rows src.cols
    some <|
      forLoop r1 ((src.rows : Int) - r1) (fun i dst =>
        forLoop r2 ((src.cols : Int) - r2) (fun j dst =>
          let sums : α :=
            forLoop (-r1) (r1 + 1) (fun m sums =>
              forLoop (-r2) (r2 + 1) (fun n sums =>
                sums + src_32FC1.get (i + m) (j + n) * kernel.get (m + r1) (n + r2)) sums) 0
          dst.set i j sums) dst) dst

section ConvDefs

variable {α β : Type} [CommRing α]

/-- The kernel passes the entry assertion of `conv2D`: both dimensions are odd. -/
def Kernel.oddSized (kernel : Kernel α) : Prop :=
  kernel.length % 2 = 1 ∧ (kernel.getD 0 []).length % 2 = 1

instance (kernel : Kernel α) : Decidable (Kernel.oddSized kernel) := by
  unfold Kernel.oddSized; infer_instance

/-- Radius of the kernel along the rows, `kernel.size() / 2`. -/
def Kernel.r1 (kernel : Kernel α) : Int := ((kernel.length / 2 : Nat) : Int)

/-- Radius of the kernel along the columns, `kernel[0].size() / 2`. -/
def Kernel.r2 (kernel : Kernel α) : Int := (((kernel.getD 0 []).length / 2 : Nat) : Int)

/-- The weighted window sum written by `conv2D` at an interior position. -/
def windowSum (toF : β → α) (src : Mat β) (kernel : Kernel α) (i j : Int) : α :=
  ∑ m in Finset.Icc (-kernel.r1) kernel.r1, ∑ n in Finset.Icc (-kernel.r2) kernel.r2,
    toF (src.px (i + m) (j + n)) * kernel.get (m + kernel.r1) (n + kernel.r2)

/-- Sample-wise combination `a·X + b·Y` of two buffers (the size is that of `X`). -/
def Mat.lin (a : α) (X : Mat α) (b : α) (Y : Mat α) : Mat α :=
  { rows := X.rows, cols := X.cols, channels := X.channels,
    px := fun i j => a * X.px i j + b * Y.px i j }

/-- A 3×3 gray image with samples `0..8` in row-major order. -/
def demoImage : Mat Nat :=
  { rows := 3, cols := 3, channels := 1, px := fun i j => (3 * i + j).toNat }

/-- A 3×3 integer kernel that is not symmetric under a flip. -/
def demoKernel : Kernel Int := [[1, 0, 0], [0, 0, 0], [0, 0, 10]]

/-- A 3×3 integer buffer. -/
def demoBuffer : Mat Int :=
  { rows := 3, cols := 3, channels := 1, px := fun i j => i * i - j }

end ConvDefs

/-! ## Sobel gradients -/

section SobelDefs

variable {α : Type} [CommRing α]

/-- The 3×3 kernel declared in `sobelX` (its single-pass use is commented out in the source). -/
def sobelX_kernel : Kernel α := [[-1, 0, 1], [-2, 0, 2], [-1, 0, 1]]

/-- Horizontal pass of `sobelX`. -/
def sobelX_sub_kernel_1 : Kernel α := [[-1, 0, 1]]

/-- Vertical pass of `sobelX`. -/
def sobelX_sub_kernel_2 : Kernel α := [[1], [2], [1]]

/-- Gradient along x of an 8-bit image, computed as two chained 1D convolutions. -/
def sobelX (src : Mat Nat) : Option (Mat α) :=
  (conv2D (fun v : Nat => (v : α)) src sobelX_sub_kernel_1).bind
    (fun pass1 => conv2D id pass1 sobelX_sub_kernel_2)

/-- The 3×3 kernel declared in `sobelY` (its single-pass use is commented out in the source). -/
def sobelY_kernel : Kernel α := [[-1, -2, -1], [0, 0, 0], [1, 2, 1]]

/-- Horizontal pass of `sobelY`. -/
def sobelY_sub_kernel_1 : Kernel α := [[1, 2, 1]]

/-- Vertical pass of `sobelY`. -/
def sobelY_sub_kernel_2 : Kernel α := [[-1], [0], [1]]

/-- Gradient along y of an 8-bit image, computed as two chained 1D convolutions. -/
def sobelY (src : Mat Nat) : Option (Mat α) :=
  (conv2D (fun v : Nat => (v : α)) src sobelY_sub_kernel_1).bind
    (fun pass1 => conv2D id pass1 sobelY_sub_kernel_2)

/-- Value of `sobelX` at an interior position. -/
def sobelXAt (src : Mat Nat) (a b : Int) : α :=
  windowSum (fun v : Nat => (v : α)) src sobelX_kernel a b

/-- Value of `sobelY` at an interior position. -/
def sobelYAt (src : Mat Nat) (a b : Int) : α :=
  windowSum (fun v : Nat => (v : α)) src sobelY_kernel a b

/-- Library routines on floating-point samples: `sqrt`, `atan2`, `lround`, the constant
`M_PI_4`, and `saturate_cast<uchar>` as applied by `convertTo(…, CV_8UC1)`. -/
structure FloatOps (α : Type) where
  sqrt : α → α
  atan2 : α → α → α
  lround : α → Int
  M_PI_4 : α
  saturate_uchar : α → Nat

/-- Gradient magnitude `sqrt(sobel_x² + sobel_y²)` at every position. -/
def sobel (ops : FloatOps α) (src : Mat Nat) : Option (Mat α) :=
  (sobelX src).bind fun sobel_x =>
  (sobelY src).bind fun sobel_y =>
    let dst_Ig : Mat α := Mat.zeros src.rows src.cols
    some <|
      forLoop 0 (src.rows : Int) (fun i dst_Ig =>
        forLoop 0 (src.cols : Int) (fun j dst_Ig =>
          dst_Ig.set i j (ops.sqrt (sobel_x.get i j ^ 2 + sobel_y.get i j ^ 2))) dst_Ig) dst_Ig

/-- A vertical step edge: every row identical, `a` left of column `c`, `b` from column `c` on. -/
def stepImage (rows cols : Nat) (c : Int) (a b : Nat) : Mat Nat :=
  { rows := rows, cols := cols, channels := 1, px := fun _ j => if j < c then a else b }

/-- An image whose samples all equal `c`. -/
def constImage (rows cols : Nat) (c : Nat) : Mat Nat :=
  { rows := rows, cols := cols, channels := 1, px := fun _ _ => c }

end SobelDefs

/-! ## Canny -/

section CannyDefs

variable {α : Type} [LinearOrderedField α]

/-- The `(drow, dcol)` table of `canny`, indexed by the quantized gradient direction. -/
def row_col_offsets : List (Int × Int) :=
  [(0, 1), (1, 1), (1, 0), (1, -1), (0, -1), (-1, -1), (-1, 0), (-1, 1)]

/-- Steps 1–2 of `canny`: blur, gradients, magnitude `Ig` and direction `Id`.
`GAUSSION_3x3` is the smoothing kernel of `my_algos/basics.h`. -/
def cannyGradient (ops : FloatOps α) (GAUSSION_3x3 : Kernel α) (src : Mat Nat) :
    Option (Mat α × Mat α) :=
  (conv2D (fun v : Nat => (v : α)) src GAUSSION_3x3).bind fun blurred =>
    let src_blurred : Mat Nat := blurred.convertTo ops.saturate_uchar
    (sobelX src_blurred).bind fun (Ix : Mat α) =>
    (sobelY src_blurred).bind fun (Iy : Mat α) =>
      let r : Int := 1 + 1
      let Ig : Mat α := Mat.zeros src.rows src.cols
      let Id : Mat α := Mat.zeros src.rows src.cols
      some <|
        forLoop r ((src.rows : Int) - r) (fun i s =>
          forLoop r ((src.cols : Int) - r) (fun j s =>
            let dx := Ix.get i j
            let dy := Iy.get i j
            (s.1.set i j (ops.sqrt (dx ^ 2 + dy ^ 2)), s.2.set i j (ops.atan2 dy dx))) s)
          (Ig, Id)

/-- Step 3 of `canny`: non maximum suppression along the gradient direction, from the
magnitude `Ig` and direction `Id`; the result is the updated `Ig`. -/
def cannySuppress (ops : FloatOps α) (src : Mat Nat) (Ig Id : Mat α) : Option (Mat α) :=
  let r : Int := 1 + 1
  let Ig_tmp : Mat α := Ig
  forLoopM r ((src.rows : Int) - r - r) (fun i Ig_tmp =>
    forLoopM r (src.cols : Int) (fun j Ig_tmp =>
      let index : Int := |ops.lround (Id.get i j / ops.M_PI_4)|
      if ¬ index ≤ 4 then none
      else
        match row_col_offsets.get? index.toNat with
        | none => none
        | some (drow, dcol) =>
          let r1 := i + drow
          let r2 := i - drow
          let c1 := j + dcol
          let c2 := j - dcol
          if Ig.get i j < Ig.get r1 c1 ∨ Ig.get i j < Ig.get r2 c2 then
            some (Ig_tmp.set i j 0)
          else some Ig_tmp) Ig_tmp) Ig_tmp

/-- Steps 1–3 of `canny`: the thinned gradient magnitude. -/
def cannyThinned (ops : FloatOps α) (GAUSSION_3x3 : Kernel α) (src : Mat Nat) :
    Option (Mat α) :=
  (cannyGradient ops GAUSSION_3x3 src).bind fun s => cannySuppress ops src s.1 s.2

/-- Canny edge detection: the thinned magnitude followed by the threshold loop. -/
def canny (ops : FloatOps α) (GAUSSION_3x3 : Kernel α) (src : Mat Nat) (lb ub : α) :
    Option (Mat Nat) :=
  (cannyThinned ops GAUSSION_3x3 src).bind fun Ig =>
    let res_mask : Mat Nat := Mat.zeros src.rows src.cols
    some <|
      forLoop 0 (src.rows : Int) (fun i res_mask =>
        forLoop 0 (src.cols : Int) (fun j res_mask =>
          if Ig.get i j > ub then res_mask.set i j 255 else res_mask) res_mask) res_mask

/-- The `(drow, dcol)` step chosen by the suppression loop of `canny` at `(i, j)`. -/
def cannyOffset (ops : FloatOps α) (Id : Mat α) (i j : Int) : Int × Int :=
  (row_col_offsets.get? (|ops.lround (Id.get i j / ops.M_PI_4)|).toNat).getD (0, 0)

/-- The test made by the suppression loop of `canny` at `(i, j)`: the magnitude is below that of
one of the two neighbours along the quantized direction. -/
def cannyBelowNeighbour (ops : FloatOps α) (Ig Id : Mat α) (i j : Int) : Prop :=
  Ig.get i j < Ig.get (i + (cannyOffset ops Id i j).1) (j + (cannyOffset ops Id i j).2)
    ∨ Ig.get i j < Ig.get (i - (cannyOffset ops Id i j).1) (j - (cannyOffset ops Id i j).2)

instance (ops : FloatOps α) (Ig Id : Mat α) (i j : Int) :
    Decidable (cannyBelowNeighbour ops Ig Id i j) := by
  unfold cannyBelowNeighbour; infer_instance

/-- The direction index computed by `canny` passes `assert(index <= 4)` wherever a direction
was stored by `atan2` or left at zero. -/
def FloatOps.directionInRange (ops : FloatOps α) : Prop :=
  |ops.lround (0 / ops.M_PI_4)| ≤ 4 ∧ ∀ y x, |ops.lround (ops.atan2 y x / ops.M_PI_4)| ≤ 4

end CannyDefs

/-! ## A rational instance of the library routines

Used to run the model on concrete inputs. -/

section RatOps

/-- Rational `lround`: round to nearest, halfway cases away from zero. -/
def lroundQ (x : ℚ) : Int := if 0 ≤ x then ⌊x + 1 / 2⌋ else -⌊-x + 1 / 2⌋

/-- The double constant `M_PI_4` to sixteen decimals. -/
def M_PI_4_Q : ℚ := 7853981633974483 / 10000000000000000

/-- Rational approximation of `atan2`: the arctangent of the smaller-over-larger ratio by
`z·(π/4 + 0.273·(1 − z))`, then reflected into the octant of `(x, y)`. -/
def atan2Q (y x : ℚ) : ℚ :=
  let z := min |y| |x| / max |y| |x|
  let a := z * (M_PI_4_Q + 273 / 1000 * (1 - z))
  let b := if |y| ≤ |x| then a else 2 * M_PI_4_Q - a
  let c := if x < 0 then 4 * M_PI_4_Q - b else b
  if y < 0 then -c else c

/-- Rational `saturate_cast<uchar>`: round to nearest, halfway cases to even, then clamp
to `0..255`. -/
def saturateQ (x : ℚ) : Nat :=
  let f : Int := ⌊x⌋
  let d : ℚ := x - f
  let r : Int := if d < 1 / 2 then f else if 1 / 2 < d then f + 1 else if f % 2 = 0 then f else f + 1
  if r < 0 then 0 else if 255 < r then 255 else r.toNat

/-- The library routines over the rationals. -/
def ratOps : FloatOps ℚ :=
  { sqrt := Rat.sqrt, atan2 := atan2Q, lround := lroundQ, M_PI_4 := M_PI_4_Q,
    saturate_uchar := saturateQ }

/-- Modelled from the spec: the smoothing kernel `kernels::GAUSSION_3x3` of `my_algos/basics.h`,
which is not among the sources; the spec gives `[[1,2,1],[2,4,2],[1,2,1]]/16`. -/
def GAUSSION_3x3 : Kernel ℚ :=
  [[1 / 16, 2 / 16, 1 / 16], [2 / 16, 4 / 16, 2 / 16], [1 / 16, 2 / 16, 1 / 16]]

end RatOps

/-! ## Index traces -/

section Traces

variable {α β : Type} [CommRing α]

/-- An element access made by `conv2D`: a read of the source, a read of the kernel, or a write
of the output, with the indices used. -/
inductive Access where
  | src (row col : Int)
  | kernel (a b : Int)
  | dst (row col : Int)
  deriving DecidableEq

/-- The accesses made by the loops of `conv2D`, in program order: for every visited `(i, j)`
the reads `src_32FC1.at(i + m, j + n)` and `kernel[m + r1][n + r2]` of the inner loops, then the
write `dst.at(i, j)`. -/
def conv2DAccesses (src : Mat β) (kernel : Kernel α) : List Access :=
  let r1 : Int := ((kernel.length / 2 : Nat) : Int)
  let r2 : Int := (((kernel.getD 0 []).length / 2 : Nat) : Int)
  forLoop r1 ((src.rows : Int) - r1) (fun i acc =>
    forLoop r2 ((src.cols : Int) - r2) (fun j acc =>
      let acc :=
        forLoop (-r1) (r1 + 1) (fun m acc =>
          forLoop (-r2) (r2 + 1) (fun n acc =>
            acc ++ [Access.src (i + m) (j + n), Access.kernel (m + r1) (n + r2)]) acc) acc
      acc ++ [Access.dst i j]) acc) []

/-- The access stays inside its buffer: a source read or an output write inside `rows × cols`,
a kernel read `kernel[a][b]` inside the kernel's rows and inside row `a`. -/
def Access.inRange (rows cols : Nat) (kernel : Kernel α) : Access → Prop
  | Access.src row col => (0 ≤ row ∧ row < (rows : Int)) ∧ 0 ≤ col ∧ col < (cols : Int)
  | Access.kernel a b =>
      (0 ≤ a ∧ a < (kernel.length : Int)) ∧ 0 ≤ b ∧ b < ((kernel.getD a.toNat []).length : Int)
  | Access.dst row col => (0 ≤ row ∧ row < (rows : Int)) ∧ 0 ≤ col ∧ col < (cols : Int)

end Traces

section SuppressIndices

variable {α : Type} [LinearOrderedField α]

/-- The position `(i, j)` is visited by the suppression loop of `canny`:
`for (i = r; i < src.rows - r - r; ++i) for (j = r; j < src.cols; ++j)` with `r = 2`. -/
def cannyVisited (src : Mat Nat) (i j : Int) : Prop :=
  (2 ≤ i ∧ i < (src.rows : Int) - 2 - 2) ∧ 2 ≤ j ∧ j < (src.cols : Int)

instance (src : Mat Nat) (i j : Int) : Decidable (cannyVisited src i j) := by
  unfold cannyVisited; infer_instance

/-- The two neighbours `(r1, c1)` and `(r2, c2)` read by the suppression loop at `(i, j)`. -/
def cannyNeighbours (ops : FloatOps α) (Id : Mat α) (i j : Int) : (Int × Int) × (Int × Int) :=
  ((i + (cannyOffset ops Id i j).1, j + (cannyOffset ops Id i j).2),
   (i - (cannyOffset ops Id i j).1, j - (cannyOffset ops Id i j).2))

end SuppressIndices

end filters

/-! ## Local maxima helpers -/

namespace cv_basics

open filters

variable {α : Type} [LinearOrder α]

/-- Modelled from the spec: `cv_basics::isLocalMax` of `my_algos/cv_basics.h`, which is not among
the sources; the spec has "test whether it is a strict local maximum within radius (no neighbor
has a strictly greater score)".  The neighbours are the positions of the square window of
half-width `radius` around `(row, col)` that lie inside the image. -/
def isLocalMax (img : Mat α) (row col radius : Int) : Bool :=
  forLoop (row - radius) (row + radius + 1) (fun r is_max =>
    forLoop (col - radius) (col + radius + 1) (fun c is_max =>
      if ((0 ≤ r ∧ r < (img.rows : Int)) ∧ 0 ≤ c ∧ c < (img.cols : Int))
          ∧ img.get row col < img.get r c then false
      else is_max) is_max) true

/-- Modelled from the spec: `cv_basics::setNeighborsToZero` of `my_algos/cv_basics.h`, which is
not among the sources; the spec has "zero-out an exclusion mask covering its neighborhood
within radius".  The neighbourhood is the square window of half-width `radius` around
`(row, col)`, clipped to the image. -/
def setNeighborsToZero (img : Mat Nat) (row col radius : Int) : Mat Nat :=
  forLoop (row - radius) (row + radius + 1) (fun r out =>
    forLoop (col - radius) (col + radius + 1) (fun c out =>
      if (0 ≤ r ∧ r < (img.rows : Int)) ∧ 0 ≤ c ∧ c < (img.cols : Int) then out.set r c 0
      else out) out) img

end cv_basics

/-! ## The library sort

`nms` ends with a call of `std::sort`, whose code is the C++ standard library's.  The definitions
of `libstdcxx` follow the implementation of GNU libstdc++ (GCC 12), `bits/stl_algo.h` and
`bits/stl_heap.h`, routine by routine: introsort with median-of-three partitioning down to ranges
of 16 elements, heap sort once the depth limit `2 * lg n` is used up, and a final insertion sort.
The array is a list, an iterator is an index into it, and `comp` is the comparator.  The loops
are bounded by fuel; the array length is enough for each of them.
-/

namespace libstdcxx

variable {β : Type} [Inhabited β]

/-- Element read `*(first + i)`. -/
def elem (v : List β) (i : Nat) : β := v.getD i default

/-- Exchange of two elements, `std::iter_swap(i, j)`. -/
def iter_swap (v : List β) (i j : Nat) : List β := (v.set i (elem v j)).set j (elem v i)

/-- Swaps the median of `*a`, `*b`, `*c` under `comp` to `*result`. -/
def move_median_to_first (comp : β → β → Bool) (v : List β) (result a b c : Nat) : List β :=
  if comp (elem v a) (elem v b) then
    if comp (elem v b) (elem v c) then iter_swap v result b
    else if comp (elem v a) (elem v c) then iter_swap v result c
    else iter_swap v result a
  else if comp (elem v a) (elem v c) then iter_swap v result a
  else if comp (elem v b) (elem v c) then iter_swap v result c
  else iter_swap v result b

/-- The scan `while (comp(first, pivot)) ++first`. -/
def scanUp (comp : β → β → Bool) (v : List β) (pivot : Nat) : Nat → Nat → Nat
  | 0, first => first
  | fuel + 1, first =>
    if comp (elem v first) (elem v pivot) then scanUp comp v pivot fuel (first + 1) else first

/-- The scan `while (comp(pivot, last)) --last`. -/
def scanDown (comp : β → β → Bool) (v : List β) (pivot : Nat) : Nat → Nat → Nat
  | 0, last => last
  | fuel + 1, last =>
    if comp (elem v pivot) (elem v last) then scanDown comp v pivot fuel (last - 1) else last

/-- The loop of `__unguarded_partition`; the result is the array and the returned cut. -/
def unguarded_partition (comp : β → β → Bool) (pivot : Nat) :
    Nat → List β → Nat → Nat → List β × Nat
  | 0, v, first, _ => (v, first)
  | fuel + 1, v, first, last =>
    let first := scanUp comp v pivot v.length first
    let last := last - 1
    let last := scanDown comp v pivot v.length last
    if ¬ (first < last) then (v, first)
    else unguarded_partition comp pivot fuel (iter_swap v first last) (first + 1) last

/-- Median-of-three pivot to `*first`, then partition of `[first + 1, last)`. -/
def unguarded_partition_pivot (comp : β → β → Bool) (v : List β) (first last : Nat) :
    List β × Nat :=
  let mid := first + (last - first) / 2
  let v := move_median_to_first comp v first (first + 1) mid (last - 1)
  unguarded_partition comp first v.length v (first + 1) last

/-- The loop of `__push_heap` and its final store. -/
def push_heap (comp : β → β → Bool) (first topIndex : Nat) (value : β) :
    Nat → List β → Nat → List β
  | 0, v, holeIndex => v.set (first + holeIndex) value
  | fuel + 1, v, holeIndex =>
    let parent := (holeIndex - 1) / 2
    if holeIndex > topIndex ∧ comp (elem v (first + parent)) value then
      push_heap comp first topIndex value fuel
        (v.set (first + holeIndex) (elem v (first + parent))) parent
    else v.set (first + holeIndex) value

/-- The first loop of `__adjust_heap`: the hole moves down to the larger child; the state is
the array, `holeIndex` and `secondChild`. -/
def adjust_heap_down (comp : β → β → Bool) (first len : Nat) :
    Nat → List β → Nat → Nat → List β × Nat × Nat
  | 0, v, holeIndex, secondChild => (v, holeIndex, secondChild)
  | fuel + 1, v, holeIndex, secondChild =>
    if secondChild < (len - 1) / 2 then
      let secondChild := 2 * (secondChild + 1)
      let secondChild :=
        if comp (elem v (first + secondChild)) (elem v (first + (secondChild - 1)))
        then secondChild - 1 else secondChild
      adjust_heap_down comp first len fuel
        (v.set (first + holeIndex) (elem v (first + secondChild))) secondChild secondChild
    else (v, holeIndex, secondChild)

/-- Sift of `value` into the heap `[first, first + len)` from `holeIndex`. -/
def adjust_heap (comp : β → β → Bool) (v : List β) (first holeIndex len : Nat) (value : β) :
    List β :=
  let topIndex := holeIndex
  let s := adjust_heap_down comp first len v.length v holeIndex holeIndex
  let v := s.1
  let holeIndex := s.2.1
  let secondChild := s.2.2
  let t : List β × Nat :=
    if len % 2 = 0 ∧ (secondChild : Int) = Int.tdiv ((len : Int) - 2) 2 then
      let secondChild := 2 * (secondChild + 1)
      (v.set (first + holeIndex) (elem v (first + (secondChild - 1))), secondChild - 1)
    else (v, holeIndex)
  push_heap comp first topIndex value t.1.length t.1 t.2

/-- Move of the top of the heap `[first, last)` to `*result`. -/
def pop_heap (comp : β → β → Bool) (v : List β) (first last result : Nat) : List β :=
  let value := elem v result
  let v := v.set result (elem v first)
  adjust_heap comp v first 0 (last - first) value

/-- The loop of `__make_heap`, from `parent` down to 0. -/
def make_heap_loop (comp : β → β → Bool) (first len : Nat) : Nat → List β → List β
  | 0, v => adjust_heap comp v first 0 len (elem v first)
  | parent + 1, v =>
    make_heap_loop comp first len parent
      (adjust_heap comp v first (parent + 1) len (elem v (first + (parent + 1))))

/-- Heap construction on `[first, last)`. -/
def make_heap (comp : β → β → Bool) (v : List β) (first last : Nat) : List β :=
  if last - first < 2 then v
  else make_heap_loop comp first (last - first) ((last - first - 2) / 2) v

/-- Heap on `[first, middle)` holding the smallest elements of `[first, last)`. -/
def heap_select (comp : β → β → Bool) (v : List β) (first middle last : Nat) : List β :=
  (List.range (last - middle)).foldl (fun v k =>
    let i := middle + k
    if comp (elem v i) (elem v first) then pop_heap comp v first middle i else v)
    (make_heap comp v first middle)

/-- The loop `while (last - first > 1) { --last; pop_heap(first, last, last); }`. -/
def sort_heap (comp : β → β → Bool) (first : Nat) : Nat → List β → Nat → List β
  | 0, v, _ => v
  | fuel + 1, v, last =>
    if last - first > 1 then sort_heap comp first fuel (pop_heap comp v first (last - 1) (last - 1)) (last - 1)
    else v

/-- Heap sort of `[first, middle)` out of `[first, last)`. -/
def partial_sort (comp : β → β → Bool) (v : List β) (first middle last : Nat) : List β :=
  let v := heap_select comp v first middle last
  sort_heap comp first v.length v middle

/-- The loop of `__introsort_loop` with `_S_threshold = 16`. -/
def introsort_loop (comp : β → β → Bool) : Nat → List β → Nat → Nat → Nat → List β
  | 0, v, _, _, _ => v
  | fuel + 1, v, first, last, depth_limit =>
    if last - first > 16 then
      if depth_limit = 0 then partial_sort comp v first last last
      else
        let depth_limit := depth_limit - 1
        let s := unguarded_partition_pivot comp v first last
        let v := introsort_loop comp fuel s.1 s.2 last depth_limit
        introsort_loop comp fuel v first s.2 depth_limit
    else v

/-- The loop of `__unguarded_linear_insert`: `val` moves down from `last` while it compares
before its predecessor. -/
def unguarded_linear_insert_loop (comp : β → β → Bool) (val : β) :
    Nat → List β → Nat → List β
  | 0, v, last => v.set last val
  | fuel + 1, v, last =>
    if comp val (elem v (last - 1)) then
      unguarded_linear_insert_loop comp val fuel (v.set last (elem v (last - 1))) (last - 1)
    else v.set last val

/-- Insertion of `*last` into the sorted range before it. -/
def unguarded_linear_insert (comp : β → β → Bool) (v : List β) (last : Nat) : List β :=
  unguarded_linear_insert_loop comp (elem v last) v.length v last

/-- Insertion sort of `[first, last)`. -/
def insertion_sort (comp : β → β → Bool) (v : List β) (first last : Nat) : List β :=
  if first = last then v
  else
    (List.range (last - (first + 1))).foldl (fun v k =>
      let i := first + 1 + k
      if comp (elem v i) (elem v first) then
        v.take first ++ [elem v i] ++ (v.drop first).take (i - first) ++ v.drop (i + 1)
      else unguarded_linear_insert comp v i) v

/-- Insertion of every element of `[first, last)` without the guard. -/
def unguarded_insertion_sort (comp : β → β → Bool) (v : List β) (first last : Nat) : List β :=
  (List.range (last - first)).foldl (fun v k => unguarded_linear_insert comp v (first + k)) v

/-- Final pass of `std::sort`. -/
def final_insertion_sort (comp : β → β → Bool) (v : List β) (first last : Nat) : List β :=
  if last - first > 16 then
    unguarded_insertion_sort comp (insertion_sort comp v first (first + 16)) (first + 16) last
  else insertion_sort comp v first last

/-- The loop behind `lg`: one step per halving. -/
def lgLoop : Nat → Nat → Nat
  | 0, _ => 0
  | fuel + 1, n => if 2 ≤ n then lgLoop fuel (n / 2) + 1 else 0

/-- Floor of the binary logarithm, `std::__lg(n)`. -/
def lg (n : Nat) : Nat := lgLoop n n

/-- The routine `std::sort(first, last, comp)` on the whole array `[first, last)`. -/
def sort (comp : β → β → Bool) (v : List β) : List β :=
  if v.length = 0 then v
  else
    let v := introsort_loop comp v.length v 0 v.length (lg v.length * 2)
    final_insertion_sort comp v 0 v.length

end libstdcxx

/-! ## Non-maximum suppression of a heatmap -/

namespace geometry

open filters

/-- Integer point `cv::Point2i`. -/
structure Point2i where
  x : Int
  y : Int
  deriving DecidableEq

section NmsDefs

variable {α : Type} [LinearOrderedRing α]

/-- Single-channel buffer of ones, `cv::Mat::ones(size, CV_8UC1)`. -/
def ones (rows cols : Nat) : Mat Nat :=
  { rows := rows, cols := cols, channels := 1, px := fun _ _ => 1 }

/-- The scan of `nms`: detect local maxima in row-major order and store `(score, position)`;
the state is the suppression mask and the peaks found so far.  `isLocalMax` and
`setNeighborsToZero` are the helpers of `my_algos/cv_basics.h`. -/
def nmsScan (isLocalMax : Mat α → Int → Int → Int → Bool)
    (setNeighborsToZero : Mat Nat → Int → Int → Int → Mat Nat)
    (heatmap : Mat α) (min_value : Int) (radius : Int) : Mat Nat × List (α × Point2i) :=
  let mask : Mat Nat := ones heatmap.rows heatmap.cols
  let peaks : List (α × Point2i) := []
  forLoop 0 (heatmap.rows : Int) (fun i s =>
    forLoop 0 (heatmap.cols : Int) (fun j s =>
      let score : α := heatmap.get i j
      if s.1.get i j = 0 ∨ score < (min_value : α) then s
      else
        let is_max : Bool := isLocalMax heatmap i j radius
        if is_max then (setNeighborsToZero s.1 i j radius, s.2 ++ [(score, ⟨j, i⟩)])
        else s) s) (mask, peaks)

/-- Non-maximum suppression: scan, sort the peaks by score, return their positions.
`std_sort` stands for `std::sort` with the comparator `p1.first > p2.first`; `none` is the failed
channel assertion. -/
def nms (isLocalMax : Mat α → Int → Int → Int → Bool)
    (setNeighborsToZero : Mat Nat → Int → Int → Int → Mat Nat)
    (std_sort : List (α × Point2i) → List (α × Point2i))
    (heatmap : Mat α) (min_value : Int) (radius : Int) : Option (List Point2i) :=
  if heatmap.channels ≠ 1 then none
  else
    let peaks := (nmsScan isLocalMax setNeighborsToZero heatmap min_value radius).2
    let peaks := std_sort peaks
    some (peaks.map fun peak => peak.2)

/-- The contract of `std::sort` with the comparator `p1.first > p2.first`: the result is a
rearrangement of the input in which no later element compares before an earlier one.  The order
of elements with equal scores is not fixed by the contract. -/
def SortsByScore (std_sort : List (α × Point2i) → List (α × Point2i)) : Prop :=
  ∀ l, (std_sort l).Perm l ∧ (std_sort l).Pairwise (fun p1 p2 => ¬ (p2.1 > p1.1))

/-- The score order `p1.first >= p2.first` on peaks. -/
def scoreGe (p1 p2 : α × Point2i) : Prop := p2.1 ≤ p1.1

instance (p1 p2 : α × Point2i) : Decidable (scoreGe p1 p2) := by
  unfold scoreGe; infer_instance

instance : IsTotal (α × Point2i) scoreGe := ⟨fun a b => le_total b.1 a.1⟩

instance : IsTrans (α × Point2i) scoreGe := ⟨fun _ _ _ hab hbc => le_trans hbc hab⟩

/-- A conforming sort that keeps peaks of equal score in their input order: insertion sort by
descending score. -/
def stableSort (l : List (α × Point2i)) : List (α × Point2i) :=
  l.insertionSort scoreGe

instance : Inhabited Point2i := ⟨⟨0, 0⟩⟩

instance : Inhabited (α × Point2i) := ⟨(0, ⟨0, 0⟩)⟩

/-- The call `std::sort(peaks.begin(), peaks.end(), comp)` of `nms` as GNU libstdc++ runs it,
with the comparator `[](auto const &p1, auto const &p2) { return p1.first > p2.first; }`. -/
def gnuSort [DecidableRel (fun a b : α => a < b)] (peaks : List (α × Point2i)) :
    List (α × Point2i) :=
  libstdcxx.sort (fun p1 p2 => decide (p1.1 > p2.1)) peaks

/-- Coordinate (Chebyshev) distance between two points. -/
def chebyshev (p q : Point2i) : Int := max |p.x - q.x| |p.y - q.y|

/-- A heatmap that is `0` everywhere except the cell `(i0, j0)`, which holds `100`. -/
def singlePeak (rows cols : Nat) (i0 j0 : Int) : Mat α :=
  { rows := rows, cols := cols, channels := 1,
    px := fun i j => if i = i0 ∧ j = j0 then 100 else 0 }

/-- A one-row heatmap `[5, 0, 5]`: two peaks of equal score. -/
def twoPeaks : Mat Int :=
  { rows := 1, cols := 3, channels := 1, px := fun _ j => if j = 1 then 0 else 5 }

/-- A one-row heatmap `[3, 0, 7, 0, 5, 0, 7]`: four peaks, three distinct scores and one tie. -/
def mixedPeaks : Mat Int :=
  { rows := 1, cols := 7, channels := 1,
    px := fun _ j =>
      if j = 0 then 3 else if j = 2 then 7 else if j = 4 then 5 else if j = 6 then 7 else 0 }

/-- A one-row heatmap of 33 columns, `5` at the even columns and `0` at the odd ones: 17 peaks
of equal score. -/
def tiedPeaks : Mat Int :=
  { rows := 1, cols := 33, channels := 1, px := fun _ j => if j % 2 = 0 then 5 else 0 }

end NmsDefs

end geometry

namespace filters

/-! ## Loop lemmas -/

section Loops

variable {α : Type}

theorem forLoop_eq_foldl {σ : Type} (lo hi : Int) (body : Int → σ → σ) (s : σ) :
    forLoop lo hi body s
      = (List.range (hi - lo).toNat).foldl (fun s (k : Nat) => body (lo + (k : Int)) s) s := rfl

/-- An accumulating loop computes the sum of its terms over the half-open index range. -/
theorem forLoop_add [AddCommMonoid α] (lo hi : Int) (f : Int → α) (a : α) :
    forLoop lo hi (fun m acc => acc + f m) a = a + ∑ m in Finset.Ico lo hi, f m := by
  have key : ∀ n : Nat, (List.range n).foldl (fun acc (k : Nat) => acc + f (lo + (k : Int))) a
      = a + ∑ k in Finset.range n, f (lo + (k : Int)) := by
    intro n
    induction n with
    | zero => simp
    | succ n ih => rw [List.range_succ, List.foldl_append, ih, Finset.sum_range_succ]; simp [add_assoc]
  rw [forLoop_eq_foldl, key]
  congr 1
  show _ = ∑ m in (Finset.range (hi - lo).toNat).map
      (Nat.castEmbedding.trans <| addLeftEmbedding lo), f m
  rw [Finset.sum_map]
  rfl

/-- A loop over one row that rewrites each visited sample from its own old value. -/
theorem forLoop_set_row (i lo hi : Int) (g : Int → α → α) (d : Mat α) :
    forLoop lo hi (fun j d => d.set i j (g j (d.px i j))) d
      = { d with px := fun a b =>
            if a = i ∧ lo ≤ b ∧ b < hi then g b (d.px a b) else d.px a b } := by
  have key : ∀ n : Nat,
      (List.range n).foldl (fun d (k : Nat) => Mat.set d i (lo + (k : Int)) (g (lo + k) (d.px i (lo + k)))) d
        = { d with px := fun a b =>
              if a = i ∧ lo ≤ b ∧ b < lo + n then g b (d.px a b) else d.px a b } := by
    intro n
    induction n with
    | zero =>
      simp only [List.range_zero, List.foldl_nil]
      cases d
      simp only [Mat.mk.injEq, true_and]
      funext a b
      rw [if_neg]
      push_cast
      omega
    | succ n ih =>
      rw [List.range_succ, List.foldl_append, ih]
      simp only [List.foldl_cons, List.foldl_nil, Mat.set]
      simp only [Mat.mk.injEq, true_and]
      funext a b
      by_cases h1 : a = i ∧ b = lo + (n : Int)
      · obtain ⟨rfl, rfl⟩ := h1
        have e1 : ¬ (lo + (n : Int) < lo + (n : Int)) := lt_irrefl _
        have e2 : lo ≤ lo + (n : Int) ∧ lo + (n : Int) < lo + ((n + 1 : Nat) : Int) := by
          push_cast; omega
        simp [e1, e2]
      · rw [if_neg h1]
        have e : (a = i ∧ lo ≤ b ∧ b < lo + ((n + 1 : Nat) : Int))
            ↔ (a = i ∧ lo ≤ b ∧ b < lo + (n : Int)) := by
          push_cast
          constructor
          · rintro ⟨ha, hb, hc⟩
            refine ⟨ha, hb, ?_⟩
            by_contra hcon
            exact h1 ⟨ha, by omega⟩
          · rintro ⟨ha, hb, hc⟩
            exact ⟨ha, hb, by omega⟩
        simp only [e]
  rw [forLoop_eq_foldl, key]
  cases d
  simp only [Mat.mk.injEq, true_and]
  funext a b
  have e : (a = i ∧ lo ≤ b ∧ b < lo + (((hi - lo).toNat : Nat) : Int))
      ↔ (a = i ∧ lo ≤ b ∧ b < hi) := by
    constructor
    · rintro ⟨ha, hb, hc⟩
      exact ⟨ha, hb, by omega⟩
    · rintro ⟨ha, hb, hc⟩
      exact ⟨ha, hb, by omega⟩
  simp only [e]

/-- A doubly nested loop that rewrites each visited sample from its own old value. -/
theorem forLoop_set_grid (lo1 hi1 lo2 hi2 : Int) (g : Int → Int → α → α) (d : Mat α) :
    forLoop lo1 hi1 (fun i d =>
        forLoop lo2 hi2 (fun j d => d.set i j (g i j (d.px i j))) d) d
      = { d with px := fun a b =>
            if (lo1 ≤ a ∧ a < hi1) ∧ lo2 ≤ b ∧ b < hi2 then g a b (d.px a b) else d.px a b } := by
  simp only [forLoop_set_row]
  have key : ∀ n : Nat,
      (List.range n).foldl (fun (d : Mat α) (k : Nat) =>
          ({ d with px := fun a b =>
              if a = lo1 + (k : Int) ∧ lo2 ≤ b ∧ b < hi2 then g (lo1 + k) b (d.px a b)
              else d.px a b } : Mat α)) d
        = { d with px := fun a b =>
              if (lo1 ≤ a ∧ a < lo1 + n) ∧ lo2 ≤ b ∧ b < hi2 then g a b (d.px a b)
              else d.px a b } := by
    intro n
    induction n with
    | zero =>
      simp only [List.range_zero, List.foldl_nil]
      cases d
      simp only [Mat.mk.injEq, true_and]
      funext a b
      rw [if_neg]
      push_cast
      omega
    | succ n ih =>
      rw [List.range_succ, List.foldl_append, ih]
      simp only [List.foldl_cons, List.foldl_nil]
      simp only [Mat.mk.injEq, true_and]
      funext a b
      by_cases hb : lo2 ≤ b ∧ b < hi2
      · by_cases h1 : a = lo1 + (n : Int)
        · subst h1
          have e1 : ¬ (lo1 + (n : Int) < lo1 + (n : Int)) := lt_irrefl _
          have e2 : lo1 ≤ lo1 + (n : Int) ∧ lo1 + (n : Int) < lo1 + ((n + 1 : Nat) : Int) := by
            push_cast; omega
          simp [e1, e2, hb]
        · have e : (lo1 ≤ a ∧ a < lo1 + ((n + 1 : Nat) : Int)) ↔ (lo1 ≤ a ∧ a < lo1 + (n : Int)) := by
            push_cast
            constructor
            · rintro ⟨ha, hc⟩
              exact ⟨ha, by omega⟩
            · rintro ⟨ha, hc⟩
              exact ⟨ha, by omega⟩
          simp only [e, h1, false_and, if_false]
      · simp only [hb, and_false, if_false]
  rw [forLoop_eq_foldl, key]
  cases d
  simp only [Mat.mk.injEq, true_and]
  funext a b
  have e : (lo1 ≤ a ∧ a < lo1 + (((hi1 - lo1).toNat : Nat) : Int)) ↔ (lo1 ≤ a ∧ a < hi1) := by
    constructor
    · rintro ⟨ha, hc⟩
      exact ⟨ha, by omega⟩
    · rintro ⟨ha, hc⟩
      exact ⟨ha, by omega⟩
  simp only [e]

theorem Mat.set_self (d : Mat α) (i j : Int) : d.set i j (d.px i j) = d := by
  cases d
  simp only [Mat.set, Mat.mk.injEq, true_and]
  funext a b
  split_ifs with h
  · rw [h.1, h.2]
  · rfl

/-- A loop whose body never aborts is the plain loop. -/
theorem forLoopM_eq_some {σ : Type} (lo hi : Int) (body : Int → σ → Option σ)
    (f : Int → σ → σ) (h : ∀ k s, body k s = some (f k s)) (s : σ) :
    forLoopM lo hi body s = some (forLoop lo hi f s) := by
  unfold forLoopM forLoop
  generalize List.range (hi - lo).toNat = l
  induction l generalizing s with
  | nil => rfl
  | cons k l ih =>
    rw [List.foldlM_cons, List.foldl_cons, h]
    exact ih _

/-- A loop over a pair of states whose body treats the components separately. -/
theorem forLoop_prod {σ τ : Type} (lo hi : Int) (f : Int → σ → σ) (g : Int → τ → τ)
    (p : σ × τ) :
    forLoop lo hi (fun k p => (f k p.1, g k p.2)) p
      = (forLoop lo hi f p.1, forLoop lo hi g p.2) := by
  unfold forLoop
  generalize List.range (hi - lo).toNat = l
  induction l generalizing p with
  | nil => rfl
  | cons k l ih =>
    simp only [List.foldl_cons]
    exact ih _

/-- Loop invariant rule: a property of the state that every iteration preserves, given the
bounds on the loop variable, holds after the loop. -/
theorem forLoop_invariant {σ : Type} (P : σ → Prop) (lo hi : Int) (body : Int → σ → σ)
    (s : σ) (h0 : P s)
    (hstep : ∀ k s, lo ≤ k → k < hi → P s → P (body k s)) :
    P (forLoop lo hi body s) := by
  rw [forLoop_eq_foldl]
  have key : ∀ n : Nat, (n : Int) ≤ ((hi - lo).toNat : Int) →
      P ((List.range n).foldl (fun s (k : Nat) => body (lo + (k : Int)) s) s) := by
    intro n
    induction n with
    | zero => intro _; simpa using h0
    | succ n ih =>
      intro hn
      rw [List.range_succ, List.foldl_append]
      simp only [List.foldl_cons, List.foldl_nil]
      push_cast at hn
      exact hstep _ _ (by omega) (by omega) (ih (by omega))
  exact key _ le_rfl

/-- Loop invariant rule with an invariant that depends on the loop variable. -/
theorem forLoop_induction {σ : Type} (P : Int → σ → Prop) (lo hi : Int)
    (body : Int → σ → σ) (s : σ) (hle : lo ≤ hi) (h0 : P lo s)
    (hstep : ∀ k s, lo ≤ k → k < hi → P k s → P (k + 1) (body k s)) :
    P hi (forLoop lo hi body s) := by
  rw [forLoop_eq_foldl]
  have key : ∀ n : Nat, (n : Int) ≤ ((hi - lo).toNat : Int) →
      P (lo + n) ((List.range n).foldl (fun s (k : Nat) => body (lo + (k : Int)) s) s) := by
    intro n
    induction n with
    | zero => intro _; simpa using h0
    | succ n ih =>
      intro hn
      rw [List.range_succ, List.foldl_append]
      simp only [List.foldl_cons, List.foldl_nil]
      push_cast at hn ⊢
      rw [← add_assoc]
      exact hstep _ _ (by omega) (by omega) (ih (by omega))
  have h := key _ le_rfl
  have e : lo + (((hi - lo).toNat : Nat) : Int) = hi := by omega
  rwa [e] at h

/-- A loop that clears a flag at the iterations satisfying `Q` ends with the flag set exactly
when it was set before and no iteration satisfied `Q`. -/
theorem forLoop_flag (lo hi : Int) (body : Int → Bool → Bool) (Q : Int → Prop)
    (hbody : ∀ k b, body k b = true ↔ b = true ∧ ¬ Q k) (b : Bool) :
    forLoop lo hi body b = true ↔ b = true ∧ ∀ k, lo ≤ k → k < hi → ¬ Q k := by
  rw [forLoop_eq_foldl]
  have key : ∀ n : Nat,
      ((List.range n).foldl (fun s (k : Nat) => body (lo + (k : Int)) s) b = true
        ↔ b = true ∧ ∀ k, lo ≤ k → k < lo + (n : Int) → ¬ Q k) := by
    intro n
    induction n with
    | zero =>
      simp only [List.range_zero, List.foldl_nil, Nat.cast_zero, add_zero]
      constructor
      · intro h; exact ⟨h, fun k h1 h2 => absurd h2 (not_lt.mpr h1)⟩
      · intro h; exact h.1
    | succ n ih =>
      rw [List.range_succ, List.foldl_append]
      simp only [List.foldl_cons, List.foldl_nil]
      rw [hbody, ih]
      push_cast
      constructor
      · rintro ⟨⟨hb, hall⟩, hq⟩
        refine ⟨hb, fun k h1 h2 => ?_⟩
        by_cases hk : k = lo + (n : Int)
        · rw [hk]; exact hq
        · exact hall k h1 (by omega)
      · rintro ⟨hb, hall⟩
        exact ⟨⟨hb, fun k h1 h2 => hall k h1 (by omega)⟩, hall _ (by omega) (by omega)⟩
  rw [key]
  constructor
  · rintro ⟨hb, hall⟩
    exact ⟨hb, fun k h1 h2 => hall k h1 (by omega)⟩
  · rintro ⟨hb, hall⟩
    exact ⟨hb, fun k h1 h2 => hall k h1 (by omega)⟩

/-- The two nested accumulation loops of `conv2D` add up the terms over the kernel window. -/
theorem forLoop_add_grid [AddCommMonoid α] (r1 r2 : Int) (t : Int → Int → α) :
    forLoop (-r1) (r1 + 1) (fun m sums =>
        forLoop (-r2) (r2 + 1) (fun n sums => sums + t m n) sums) 0
      = ∑ m in Finset.Icc (-r1) r1, ∑ n in Finset.Icc (-r2) r2, t m n := by
  simp only [forLoop_add, zero_add]
  rfl

end Loops

/-! ## Closed form of `conv2D` -/

section Conv

variable {α β : Type} [CommRing α]

theorem conv2D_eq (toF : β → α) (src : Mat β) (kernel : Kernel α)
    (hch : src.channels = 1) (hk : kernel.oddSized) :
    conv2D toF src kernel = some
      { rows := src.rows, cols := src.cols, channels := 1,
        px := fun a b =>
          if (kernel.r1 ≤ a ∧ a < (src.rows : Int) - kernel.r1)
              ∧ kernel.r2 ≤ b ∧ b < (src.cols : Int) - kernel.r2
          then windowSum toF src kernel a b else 0 } := by
  unfold conv2D
  rw [if_neg (by simp [hch]), if_neg (by simpa [Kernel.oddSized] using hk)]
  simp only [forLoop_add_grid]
  rw [forLoop_set_grid _ _ _ _ (fun i j _ => _)]
  rfl

/-- C1: at every interior position `conv2D` writes the correlation sum
`Σ_{m ∈ [-r1,r1]} Σ_{n ∈ [-r2,r2]} src[i+m, j+n] * kernel[m+r1][n+r2]` (kernel not flipped). -/
theorem conv2D_interior (toF : β → α) (src : Mat β) (kernel : Kernel α) (r1 r2 : Nat)
    (hch : src.channels = 1)
    (hrows : kernel.length = 2 * r1 + 1) (hcols : ∀ row ∈ kernel, row.length = 2 * r2 + 1)
    (i j : Int) (hi : (r1 : Int) ≤ i ∧ i < (src.rows : Int) - r1)
    (hj : (r2 : Int) ≤ j ∧ j < (src.cols : Int) - r2) :
    ∃ dst, conv2D toF src kernel = some dst ∧
      dst.get i j = ∑ m in Finset.Icc (-(r1 : Int)) r1, ∑ n in Finset.Icc (-(r2 : Int)) r2,
        toF (src.get (i + m) (j + n)) * kernel.get (m + r1) (n + r2) := by
  have h0 : (kernel.getD 0 []).length = 2 * r2 + 1 := by
    cases kernel with
    | nil => simp at hrows
    | cons row rest => simpa using hcols row (by simp)
  have hk : kernel.oddSized := by
    unfold Kernel.oddSized; rw [hrows, h0]; omega
  have e1 : kernel.r1 = (r1 : Int) := by
    unfold Kernel.r1; rw [hrows]; congr 1; omega
  have e2 : kernel.r2 = (r2 : Int) := by
    unfold Kernel.r2; rw [h0]; congr 1; omega
  refine ⟨_, conv2D_eq toF src kernel hch hk, ?_⟩
  simp only [Mat.get, e1, e2, windowSum]
  rw [if_pos ⟨hi, hj⟩]

theorem conv2D_interior_witness :
    ∃ dst, conv2D (fun n : Nat => (n : Int)) demoImage demoKernel = some dst ∧
      dst.get 1 1 = ∑ m in Finset.Icc (-((1 : Nat) : Int)) (1 : Nat),
        ∑ n in Finset.Icc (-((1 : Nat) : Int)) (1 : Nat),
          ((demoImage.get (1 + m) (1 + n) : Nat) : Int)
            * Kernel.get demoKernel (m + (1 : Nat)) (n + (1 : Nat)) :=
  conv2D_interior (fun n : Nat => (n : Int)) demoImage demoKernel 1 1 rfl rfl
    (by decide) 1 1 (by decide) (by decide)

/-- C2: the output of `conv2D` has the row and column counts of `src` and is zero at every
position of the border band; when the image is smaller than the kernel the whole output is
zero. -/
theorem conv2D_border_zero (toF : β → α) (src : Mat β) (kernel : Kernel α) (r1 r2 : Nat)
    (hch : src.channels = 1)
    (hrows : kernel.length = 2 * r1 + 1) (hcols : (kernel.getD 0 []).length = 2 * r2 + 1) :
    ∃ dst, conv2D toF src kernel = some dst ∧ dst.rows = src.rows ∧ dst.cols = src.cols ∧
      (∀ i j : Int, 0 ≤ i → i < src.rows → 0 ≤ j → j < src.cols →
        (i < r1 ∨ (src.rows : Int) - r1 ≤ i ∨ j < r2 ∨ (src.cols : Int) - r2 ≤ j) →
        dst.get i j = 0) ∧
      ((src.rows < 2 * r1 + 1 ∨ src.cols < 2 * r2 + 1) →
        ∀ i j : Int, 0 ≤ i → i < src.rows → 0 ≤ j → j < src.cols → dst.get i j = 0) := by
  have hk : kernel.oddSized := by
    unfold Kernel.oddSized; rw [hrows, hcols]; omega
  have e1 : kernel.r1 = (r1 : Int) := by
    unfold Kernel.r1; rw [hrows]; congr 1; omega
  have e2 : kernel.r2 = (r2 : Int) := by
    unfold Kernel.r2; rw [hcols]; congr 1; omega
  refine ⟨_, conv2D_eq toF src kernel hch hk, rfl, rfl, ?_, ?_⟩
  · intro i j _ _ _ _ hband
    simp only [Mat.get, e1, e2]
    rw [if_neg]
    omega
  · intro hsmall i j _ _ _ _
    simp only [Mat.get, e1, e2]
    rw [if_neg]
    omega

theorem conv2D_border_zero_witness :
    ∃ dst, conv2D (fun n : Nat => (n : Int)) demoImage demoKernel = some dst ∧
      dst.rows = demoImage.rows ∧ dst.cols = demoImage.cols ∧
      (∀ i j : Int, 0 ≤ i → i < demoImage.rows → 0 ≤ j → j < demoImage.cols →
        (i < (1 : Nat) ∨ (demoImage.rows : Int) - (1 : Nat) ≤ i ∨ j < (1 : Nat)
          ∨ (demoImage.cols : Int) - (1 : Nat) ≤ j) →
        dst.get i j = 0) ∧
      ((demoImage.rows < 2 * 1 + 1 ∨ demoImage.cols < 2 * 1 + 1) →
        ∀ i j : Int, 0 ≤ i → i < demoImage.rows → 0 ≤ j → j < demoImage.cols →
          dst.get i j = 0) :=
  conv2D_border_zero (fun n : Nat => (n : Int)) demoImage demoKernel 1 1 rfl rfl rfl

/-- C3: on a single-channel image `conv2D` fails exactly when the kernel's row count or the
length of its first row is even, and returns a buffer when both are odd. -/
theorem conv2D_fails_iff_even (toF : β → α) (src : Mat β) (kernel : Kernel α)
    (hch : src.channels = 1) :
    (conv2D toF src kernel = none ↔
      (kernel.length % 2 = 0 ∨ (kernel.getD 0 []).length % 2 = 0)) ∧
    ((kernel.length % 2 = 1 ∧ (kernel.getD 0 []).length % 2 = 1) →
      ∃ dst, conv2D toF src kernel = some dst) := by
  constructor
  · by_cases hk : kernel.oddSized
    · rw [conv2D_eq toF src kernel hch hk]
      unfold Kernel.oddSized at hk
      constructor
      · intro h; cases h
      · intro h; omega
    · have hnone : conv2D toF src kernel = none := by
        unfold conv2D
        rw [if_neg (by simp [hch]), if_pos (by simpa [Kernel.oddSized] using hk)]
      unfold Kernel.oddSized at hk
      constructor
      · intro _; omega
      · intro _; exact hnone
  · intro hk
    exact ⟨_, conv2D_eq toF src kernel hch hk⟩

theorem conv2D_fails_iff_even_witness :
    (conv2D (fun n : Nat => (n : Int)) demoImage [[1, 2], [3, 4]] = none ↔
      (([[1, 2], [3, 4]] : Kernel Int).length % 2 = 0
        ∨ ((([[1, 2], [3, 4]] : Kernel Int).getD 0 []).length % 2 = 0))) ∧
    (((([[1, 2], [3, 4]] : Kernel Int).length % 2 = 1
        ∧ (([[1, 2], [3, 4]] : Kernel Int).getD 0 []).length % 2 = 1)) →
      ∃ dst, conv2D (fun n : Nat => (n : Int)) demoImage [[1, 2], [3, 4]] = some dst) :=
  conv2D_fails_iff_even (fun n : Nat => (n : Int)) demoImage [[1, 2], [3, 4]] rfl

/-- C4: `conv2D(X, [[1]])` is `X` coerced to floating point at every position, the outermost
rows and columns included. -/
theorem conv2D_identity_kernel (toF : β → α) (X : Mat β) (hch : X.channels = 1) :
    ∃ dst, conv2D toF X [[1]] = some dst ∧ dst.rows = X.rows ∧ dst.cols = X.cols ∧
      ∀ i j : Int, 0 ≤ i → i < X.rows → 0 ≤ j → j < X.cols →
        dst.get i j = toF (X.get i j) := by
  have hk : Kernel.oddSized ([[1]] : Kernel α) := by
    unfold Kernel.oddSized; simp
  refine ⟨_, conv2D_eq toF X [[1]] hch hk, rfl, rfl, ?_⟩
  intro i j hi0 hi1 hj0 hj1
  have e1 : Kernel.r1 ([[1]] : Kernel α) = 0 := by simp [Kernel.r1]
  have e2 : Kernel.r2 ([[1]] : Kernel α) = 0 := by simp [Kernel.r2]
  simp only [Mat.get, e1, e2, windowSum]
  rw [if_pos (by omega)]
  simp [Kernel.get]

theorem conv2D_identity_kernel_witness :
    ∃ dst, conv2D (fun n : Nat => (n : Int)) demoImage [[1]] = some dst ∧
      dst.rows = demoImage.rows ∧ dst.cols = demoImage.cols ∧
      ∀ i j : Int, 0 ≤ i → i < demoImage.rows → 0 ≤ j → j < demoImage.cols →
        dst.get i j = ((demoImage.get i j : Nat) : Int) :=
  conv2D_identity_kernel (fun n : Nat => (n : Int)) demoImage rfl

/-- C5: `conv2D` is linear in the image: for same-size buffers `X`, `Y`, scalars `a`, `b` and
an odd-sized kernel, `conv2D(a·X + b·Y, K) = a·conv2D(X, K) + b·conv2D(Y, K)` at every
position. -/
theorem conv2D_linear (a b : α) (X Y : Mat α) (K : Kernel α)
    (hX : X.channels = 1) (hY : Y.channels = 1)
    (hrows : X.rows = Y.rows) (hcols : X.cols = Y.cols) (hK : K.oddSized) :
    ∃ dX dY dZ, conv2D id X K = some dX ∧ conv2D id Y K = some dY ∧
      conv2D id (Mat.lin a X b Y) K = some dZ ∧
      ∀ i j : Int, dZ.get i j = a * dX.get i j + b * dY.get i j := by
  refine ⟨_, _, _, conv2D_eq id X K hX hK, conv2D_eq id Y K hY hK,
    conv2D_eq id (Mat.lin a X b Y) K hX hK, ?_⟩
  intro i j
  simp only [Mat.get, Mat.lin, ← hrows, ← hcols]
  split_ifs with h
  · simp only [windowSum, id, Finset.mul_sum, ← Finset.sum_add_distrib]
    refine Finset.sum_congr rfl fun m _ => Finset.sum_congr rfl fun n _ => ?_
    ring
  · simp

theorem conv2D_linear_witness :
    ∃ dX dY dZ, conv2D id demoBuffer demoKernel = some dX ∧
      conv2D id (Mat.lin 2 demoBuffer 3 demoBuffer) demoKernel = some dY ∧
      conv2D id (Mat.lin 5 demoBuffer (-7) (Mat.lin 2 demoBuffer 3 demoBuffer)) demoKernel
        = some dZ ∧
      ∀ i j : Int, dZ.get i j = 5 * dX.get i j + (-7) * dY.get i j :=
  conv2D_linear 5 (-7) demoBuffer (Mat.lin 2 demoBuffer 3 demoBuffer) demoKernel
    rfl rfl rfl rfl (by decide)

end Conv

/-! ## Sobel gradients -/

section Sobel

variable {α : Type} [CommRing α]

theorem sum_Icc_neg_one_one {γ : Type} [AddCommMonoid γ] (f : ℤ → γ) :
    ∑ m in Finset.Icc (-1 : ℤ) 1, f m = f (-1) + f 0 + f 1 := by
  have h : Finset.Icc (-1 : ℤ) 1 = {-1, 0, 1} := by decide
  rw [h]
  simp [add_assoc]

/-- Window sum of a one-row, three-column kernel. -/
theorem windowSum_row3 {β : Type} (toF : β → α) (src : Mat β) (k0 k1 k2 : α) (a b : Int) :
    windowSum toF src [[k0, k1, k2]] a b
      = toF (src.px a (b - 1)) * k0 + toF (src.px a b) * k1 + toF (src.px a (b + 1)) * k2 := by
  simp [windowSum, Kernel.r1, Kernel.r2, Kernel.get, sum_Icc_neg_one_one, sub_eq_add_neg]

/-- Window sum of a three-row, one-column kernel. -/
theorem windowSum_col3 {β : Type} (toF : β → α) (src : Mat β) (k0 k1 k2 : α) (a b : Int) :
    windowSum toF src [[k0], [k1], [k2]] a b
      = toF (src.px (a - 1) b) * k0 + toF (src.px a b) * k1 + toF (src.px (a + 1) b) * k2 := by
  simp [windowSum, Kernel.r1, Kernel.r2, Kernel.get, sum_Icc_neg_one_one, sub_eq_add_neg]

/-- Window sum of a 3×3 kernel. -/
theorem windowSum_3x3 {β : Type} (toF : β → α) (src : Mat β)
    (k00 k01 k02 k10 k11 k12 k20 k21 k22 : α) (a b : Int) :
    windowSum toF src [[k00, k01, k02], [k10, k11, k12], [k20, k21, k22]] a b
      = toF (src.px (a - 1) (b - 1)) * k00 + toF (src.px (a - 1) b) * k01
        + toF (src.px (a - 1) (b + 1)) * k02
        + (toF (src.px a (b - 1)) * k10 + toF (src.px a b) * k11 + toF (src.px a (b + 1)) * k12)
        + (toF (src.px (a + 1) (b - 1)) * k20 + toF (src.px (a + 1) b) * k21
          + toF (src.px (a + 1) (b + 1)) * k22) := by
  simp [windowSum, Kernel.r1, Kernel.r2, Kernel.get, sum_Icc_neg_one_one, sub_eq_add_neg]

/-- Closed form of the single-pass convolution with a 3×3 kernel. -/
theorem conv2D_3x3 {β : Type} (toF : β → α) (src : Mat β)
    (k00 k01 k02 k10 k11 k12 k20 k21 k22 : α) (hch : src.channels = 1) :
    conv2D toF src [[k00, k01, k02], [k10, k11, k12], [k20, k21, k22]] = some
      { rows := src.rows, cols := src.cols, channels := 1,
        px := fun a b =>
          if (1 ≤ a ∧ a < (src.rows : Int) - 1) ∧ 1 ≤ b ∧ b < (src.cols : Int) - 1
          then windowSum toF src [[k00, k01, k02], [k10, k11, k12], [k20, k21, k22]] a b
          else 0 } := by
  rw [conv2D_eq toF src _ hch (by simp [Kernel.oddSized])]
  simp [Kernel.r1, Kernel.r2]

/-- Two chained convolutions, a one-row kernel then a one-column kernel, are the single pass
with the outer-product 3×3 kernel. -/
theorem conv2D_separable (src : Mat Nat) (h0 h1 h2 v0 v1 v2 : α) (hch : src.channels = 1) :
    (conv2D (fun v : Nat => (v : α)) src [[h0, h1, h2]]).bind
        (fun pass1 => conv2D id pass1 [[v0], [v1], [v2]])
      = conv2D (fun v : Nat => (v : α)) src
          [[v0 * h0, v0 * h1, v0 * h2], [v1 * h0, v1 * h1, v1 * h2],
            [v2 * h0, v2 * h1, v2 * h2]] := by
  rw [conv2D_eq _ src [[h0, h1, h2]] hch (by simp [Kernel.oddSized]), Option.some_bind,
    conv2D_eq id _ [[v0], [v1], [v2]] rfl (by simp [Kernel.oddSized]), conv2D_3x3 _ src _ _ _ _ _ _ _ _ _ hch]
  simp only [Option.some.injEq, Mat.mk.injEq, true_and]
  funext a b
  simp only [windowSum_3x3, windowSum_col3, windowSum_row3, id]
  have e1 : Kernel.r1 ([[h0, h1, h2]] : Kernel α) = 0 := by simp [Kernel.r1]
  have e2 : Kernel.r2 ([[h0, h1, h2]] : Kernel α) = 1 := by simp [Kernel.r2]
  have e3 : Kernel.r1 ([[v0], [v1], [v2]] : Kernel α) = 1 := by simp [Kernel.r1]
  have e4 : Kernel.r2 ([[v0], [v1], [v2]] : Kernel α) = 0 := by simp [Kernel.r2]
  simp only [e1, e2, e3, e4]
  by_cases ha : 1 ≤ a ∧ a < (src.rows : Int) - 1
  · by_cases hb : 1 ≤ b ∧ b < (src.cols : Int) - 1
    · have c1 : (0 ≤ a - 1 ∧ a - 1 < (src.rows : Int) - 0) ∧ 1 ≤ b ∧ b < (src.cols : Int) - 1 :=
        ⟨by omega, hb⟩
      have c2 : (0 ≤ a ∧ a < (src.rows : Int) - 0) ∧ 1 ≤ b ∧ b < (src.cols : Int) - 1 :=
        ⟨by omega, hb⟩
      have c3 : (0 ≤ a + 1 ∧ a + 1 < (src.rows : Int) - 0) ∧ 1 ≤ b ∧ b < (src.cols : Int) - 1 :=
        ⟨by omega, hb⟩
      have c4 : (1 ≤ a ∧ a < (src.rows : Int) - 1) ∧ 0 ≤ b ∧ b < (src.cols : Int) - 0 :=
        ⟨ha, by omega⟩
      rw [if_pos c4, if_pos c1, if_pos c2, if_pos c3, if_pos ⟨ha, hb⟩]
      ring
    · have c4 : (1 ≤ a ∧ a < (src.rows : Int) - 1) ∧ 0 ≤ b ∧ b < (src.cols : Int) - 0 ↔
          (0 ≤ b ∧ b < (src.cols : Int)) := by
        constructor
        · rintro ⟨_, h⟩; omega
        · intro h; exact ⟨ha, by omega⟩
      have c5 : ∀ x : Int, ¬ ((0 ≤ x ∧ x < (src.rows : Int) - 0) ∧ 1 ≤ b
          ∧ b < (src.cols : Int) - 1) := fun x h => hb h.2
      have c6 : ¬ ((1 ≤ a ∧ a < (src.rows : Int) - 1) ∧ 1 ≤ b ∧ b < (src.cols : Int) - 1) :=
        fun h => hb h.2
      simp only [c5, c6, if_false]
      simp
  · have c4 : ¬ ((1 ≤ a ∧ a < (src.rows : Int) - 1) ∧ 0 ≤ b ∧ b < (src.cols : Int) - 0) :=
      fun h => ha h.1
    have c6 : ¬ ((1 ≤ a ∧ a < (src.rows : Int) - 1) ∧ 1 ≤ b ∧ b < (src.cols : Int) - 1) :=
      fun h => ha h.1
    rw [if_neg c4, if_neg c6]

theorem sobelX_eq_conv2D (src : Mat Nat) (hch : src.channels = 1) :
    (sobelX src : Option (Mat α)) = conv2D (fun v : Nat => (v : α)) src sobelX_kernel := by
  unfold sobelX sobelX_sub_kernel_1 sobelX_sub_kernel_2 sobelX_kernel
  rw [conv2D_separable src _ _ _ _ _ _ hch]
  congr 1
  simp

theorem sobelY_eq_conv2D (src : Mat Nat) (hch : src.channels = 1) :
    (sobelY src : Option (Mat α)) = conv2D (fun v : Nat => (v : α)) src sobelY_kernel := by
  unfold sobelY sobelY_sub_kernel_1 sobelY_sub_kernel_2 sobelY_kernel
  rw [conv2D_separable src _ _ _ _ _ _ hch]
  congr 1
  simp

theorem sobelX_eq (src : Mat Nat) (hch : src.channels = 1) :
    (sobelX src : Option (Mat α)) = some
      { rows := src.rows, cols := src.cols, channels := 1,
        px := fun a b =>
          if (1 ≤ a ∧ a < (src.rows : Int) - 1) ∧ 1 ≤ b ∧ b < (src.cols : Int) - 1
          then sobelXAt src a b else 0 } := by
  rw [sobelX_eq_conv2D src hch]
  exact conv2D_3x3 _ src _ _ _ _ _ _ _ _ _ hch

theorem sobelY_eq (src : Mat Nat) (hch : src.channels = 1) :
    (sobelY src : Option (Mat α)) = some
      { rows := src.rows, cols := src.cols, channels := 1,
        px := fun a b =>
          if (1 ≤ a ∧ a < (src.rows : Int) - 1) ∧ 1 ≤ b ∧ b < (src.cols : Int) - 1
          then sobelYAt src a b else 0 } := by
  rw [sobelY_eq_conv2D src hch]
  exact conv2D_3x3 _ src _ _ _ _ _ _ _ _ _ hch

/-- C6: for every 8-bit single-channel image the two-pass `sobelX` equals the single-pass
convolution with `[[-1,0,1],[-2,0,2],[-1,0,1]]` and the two-pass `sobelY` equals the single-pass
convolution with `[[-1,-2,-1],[0,0,0],[1,2,1]]`, at every position; on the width-1 border band
both are zero. -/
theorem sobel_two_pass_eq_single_pass (src : Mat Nat) (hch : src.channels = 1) :
    (∃ two single : Mat α, sobelX src = some two ∧
      conv2D (fun v : Nat => (v : α)) src [[-1, 0, 1], [-2, 0, 2], [-1, 0, 1]] = some single ∧
      two.rows = single.rows ∧ two.cols = single.cols ∧
      (∀ i j : Int, two.get i j = single.get i j) ∧
      (∀ i j : Int, (i < 1 ∨ (src.rows : Int) - 1 ≤ i ∨ j < 1 ∨ (src.cols : Int) - 1 ≤ j) →
        two.get i j = 0 ∧ single.get i j = 0)) ∧
    (∃ two single : Mat α, sobelY src = some two ∧
      conv2D (fun v : Nat => (v : α)) src [[-1, -2, -1], [0, 0, 0], [1, 2, 1]] = some single ∧
      two.rows = single.rows ∧ two.cols = single.cols ∧
      (∀ i j : Int, two.get i j = single.get i j) ∧
      (∀ i j : Int, (i < 1 ∨ (src.rows : Int) - 1 ≤ i ∨ j < 1 ∨ (src.cols : Int) - 1 ≤ j) →
        two.get i j = 0 ∧ single.get i j = 0)) := by
  constructor
  · refine ⟨_, _, sobelX_eq src hch, conv2D_3x3 _ src _ _ _ _ _ _ _ _ _ hch, rfl, rfl,
      fun i j => rfl, ?_⟩
    intro i j hband
    have hn : ¬ ((1 ≤ i ∧ i < (src.rows : Int) - 1) ∧ 1 ≤ j ∧ j < (src.cols : Int) - 1) := by
      omega
    simp only [Mat.get, if_neg hn, and_self]
  · refine ⟨_, _, sobelY_eq src hch, conv2D_3x3 _ src _ _ _ _ _ _ _ _ _ hch, rfl, rfl,
      fun i j => rfl, ?_⟩
    intro i j hband
    have hn : ¬ ((1 ≤ i ∧ i < (src.rows : Int) - 1) ∧ 1 ≤ j ∧ j < (src.cols : Int) - 1) := by
      omega
    simp only [Mat.get, if_neg hn, and_self]

theorem sobel_two_pass_eq_single_pass_witness :
    (∃ two single : Mat Int, sobelX demoImage = some two ∧
      conv2D (fun v : Nat => (v : Int)) demoImage [[-1, 0, 1], [-2, 0, 2], [-1, 0, 1]]
        = some single ∧
      two.rows = single.rows ∧ two.cols = single.cols ∧
      (∀ i j : Int, two.get i j = single.get i j) ∧
      (∀ i j : Int, (i < 1 ∨ (demoImage.rows : Int) - 1 ≤ i ∨ j < 1
          ∨ (demoImage.cols : Int) - 1 ≤ j) →
        two.get i j = 0 ∧ single.get i j = 0)) ∧
    (∃ two single : Mat Int, sobelY demoImage = some two ∧
      conv2D (fun v : Nat => (v : Int)) demoImage [[-1, -2, -1], [0, 0, 0], [1, 2, 1]]
        = some single ∧
      two.rows = single.rows ∧ two.cols = single.cols ∧
      (∀ i j : Int, two.get i j = single.get i j) ∧
      (∀ i j : Int, (i < 1 ∨ (demoImage.rows : Int) - 1 ≤ i ∨ j < 1
          ∨ (demoImage.cols : Int) - 1 ≤ j) →
        two.get i j = 0 ∧ single.get i j = 0)) :=
  sobel_two_pass_eq_single_pass demoImage rfl

/-- C7: if every sample of `src` equals `c`, then `sobelX(src)` and `sobelY(src)` are zero at
every position outside the width-1 border band. -/
theorem sobel_constant_image_zero (src : Mat Nat) (c : Nat) (hch : src.channels = 1)
    (hconst : ∀ i j : Int, 0 ≤ i → i < src.rows → 0 ≤ j → j < src.cols → src.get i j = c) :
    ∃ gx gy : Mat α, sobelX src = some gx ∧ sobelY src = some gy ∧
      ∀ i j : Int, 1 ≤ i → i < (src.rows : Int) - 1 → 1 ≤ j → j < (src.cols : Int) - 1 →
        gx.get i j = 0 ∧ gy.get i j = 0 := by
  refine ⟨_, _, sobelX_eq src hch, sobelY_eq src hch, ?_⟩
  intro i j hi0 hi1 hj0 hj1
  have hp : ∀ di dj : Int, -1 ≤ di → di ≤ 1 → -1 ≤ dj → dj ≤ 1 →
      src.px (i + di) (j + dj) = c := fun di dj _ _ _ _ =>
    hconst (i + di) (j + dj) (by omega) (by omega) (by omega) (by omega)
  have h1 := hp (-1) (-1) (by omega) (by omega) (by omega) (by omega)
  have h2 := hp (-1) 0 (by omega) (by omega) (by omega) (by omega)
  have h3 := hp (-1) 1 (by omega) (by omega) (by omega) (by omega)
  have h4 := hp 0 (-1) (by omega) (by omega) (by omega) (by omega)
  have h5 := hp 0 0 (by omega) (by omega) (by omega) (by omega)
  have h6 := hp 0 1 (by omega) (by omega) (by omega) (by omega)
  have h7 := hp 1 (-1) (by omega) (by omega) (by omega) (by omega)
  have h8 := hp 1 0 (by omega) (by omega) (by omega) (by omega)
  have h9 := hp 1 1 (by omega) (by omega) (by omega) (by omega)
  simp only [add_zero, ← sub_eq_add_neg] at h1 h2 h3 h4 h5 h6 h7 h8 h9
  simp only [Mat.get]
  rw [if_pos ⟨⟨hi0, hi1⟩, hj0, hj1⟩, if_pos ⟨⟨hi0, hi1⟩, hj0, hj1⟩]
  simp only [sobelXAt, sobelYAt, sobelX_kernel, sobelY_kernel, windowSum_3x3,
    h1, h2, h3, h4, h5, h6, h7, h8, h9]
  constructor <;> ring

theorem sobel_constant_image_zero_witness :
    ∃ gx gy : Mat Int, sobelX (constImage 4 5 7) = some gx ∧
      sobelY (constImage 4 5 7) = some gy ∧
      ∀ i j : Int, 1 ≤ i → i < ((constImage 4 5 7).rows : Int) - 1 → 1 ≤ j →
        j < ((constImage 4 5 7).cols : Int) - 1 → gx.get i j = 0 ∧ gy.get i j = 0 :=
  sobel_constant_image_zero (constImage 4 5 7) 7 rfl (fun _ _ _ _ _ _ => rfl)

end Sobel

section SobelMagnitude

variable {α : Type} [LinearOrderedCommRing α]

theorem sobel_eq (ops : FloatOps α) (src : Mat Nat) (hch : src.channels = 1) :
    sobel ops src = some
      { rows := src.rows, cols := src.cols, channels := 1,
        px := fun a b =>
          if (0 ≤ a ∧ a < (src.rows : Int)) ∧ 0 ≤ b ∧ b < (src.cols : Int) then
            ops.sqrt
              ((if (1 ≤ a ∧ a < (src.rows : Int) - 1) ∧ 1 ≤ b ∧ b < (src.cols : Int) - 1
                  then sobelXAt src a b else 0) ^ 2
                + (if (1 ≤ a ∧ a < (src.rows : Int) - 1) ∧ 1 ≤ b ∧ b < (src.cols : Int) - 1
                  then sobelYAt src a b else 0) ^ 2)
          else 0 } := by
  unfold sobel
  rw [sobelX_eq src hch, sobelY_eq src hch]
  simp only [Option.some_bind]
  rw [forLoop_set_grid _ _ _ _ (fun i j _ => _)]
  rfl

/-- On a vertical step edge the x-gradient is four times the jump across the two neighbouring
columns and the y-gradient vanishes. -/
theorem sobelAt_step (src : Mat Nat) (c : Int) (a b : Nat)
    (hsrc : ∀ i j : Int, 0 ≤ i → i < src.rows → 0 ≤ j → j < src.cols →
      src.get i j = if j < c then a else b)
    (i j : Int) (hi0 : 1 ≤ i) (hi1 : i < (src.rows : Int) - 1)
    (hj0 : 1 ≤ j) (hj1 : j < (src.cols : Int) - 1) :
    (sobelXAt src i j : α)
        = 4 * (((if j + 1 < c then a else b : Nat) : α) - ((if j - 1 < c then a else b : Nat) : α))
      ∧ (sobelYAt src i j : α) = 0 := by
  have hp : ∀ di dj : Int, -1 ≤ di → di ≤ 1 → -1 ≤ dj → dj ≤ 1 →
      src.px (i + di) (j + dj) = if j + dj < c then a else b := fun di dj _ _ _ _ =>
    hsrc (i + di) (j + dj) (by omega) (by omega) (by omega) (by omega)
  have h1 := hp (-1) (-1) (by omega) (by omega) (by omega) (by omega)
  have h2 := hp (-1) 0 (by omega) (by omega) (by omega) (by omega)
  have h3 := hp (-1) 1 (by omega) (by omega) (by omega) (by omega)
  have h4 := hp 0 (-1) (by omega) (by omega) (by omega) (by omega)
  have h5 := hp 0 0 (by omega) (by omega) (by omega) (by omega)
  have h6 := hp 0 1 (by omega) (by omega) (by omega) (by omega)
  have h7 := hp 1 (-1) (by omega) (by omega) (by omega) (by omega)
  have h8 := hp 1 0 (by omega) (by omega) (by omega) (by omega)
  have h9 := hp 1 1 (by omega) (by omega) (by omega) (by omega)
  simp only [add_zero, ← sub_eq_add_neg] at h1 h2 h3 h4 h5 h6 h7 h8 h9
  simp only [sobelXAt, sobelYAt, sobelX_kernel, sobelY_kernel, windowSum_3x3,
    h1, h2, h3, h4, h5, h6, h7, h8, h9]
  constructor <;> ring

/-- C8: on a clean vertical step edge (every row identical, `a` in columns `< c`, `b` in columns
`≥ c`, `2 ≤ c ≤ cols-2`) the Sobel magnitude equals `4·|b-a|` at the non-border positions of
columns `c-1` and `c` and `0` at every other non-border position; so `4·|b-a|` is its maximum
over the non-border positions, attained (the step being a real one, `a ≠ b`) exactly at those
two columns. -/
theorem sobel_step_edge (ops : FloatOps α) (hsqrt : ∀ x : α, ops.sqrt (x ^ 2) = |x|)
    (src : Mat Nat) (c : Int) (a b : Nat) (hch : src.channels = 1)
    (hc : 2 ≤ c ∧ c ≤ (src.cols : Int) - 2)
    (hsrc : ∀ i j : Int, 0 ≤ i → i < src.rows → 0 ≤ j → j < src.cols →
      src.get i j = if j < c then a else b) :
    ∃ mag : Mat α, sobel ops src = some mag ∧
      (∀ i : Int, 1 ≤ i → i < (src.rows : Int) - 1 →
        mag.get i (c - 1) = 4 * |(b : α) - (a : α)| ∧ mag.get i c = 4 * |(b : α) - (a : α)|) ∧
      (∀ i j : Int, 1 ≤ i → i < (src.rows : Int) - 1 → 1 ≤ j → j < (src.cols : Int) - 1 →
        ((j = c - 1 ∨ j = c) → mag.get i j = 4 * |(b : α) - (a : α)|) ∧
        (¬ (j = c - 1 ∨ j = c) → mag.get i j = 0) ∧
        mag.get i j ≤ 4 * |(b : α) - (a : α)| ∧
        (a ≠ b → (mag.get i j = 4 * |(b : α) - (a : α)| ↔ (j = c - 1 ∨ j = c)))) := by
  have main : ∀ i j : Int, 1 ≤ i → i < (src.rows : Int) - 1 → 1 ≤ j →
      j < (src.cols : Int) - 1 →
      ((j = c - 1 ∨ j = c) →
        ops.sqrt ((sobelXAt src i j : α) ^ 2 + (sobelYAt src i j : α) ^ 2)
          = 4 * |(b : α) - (a : α)|) ∧
      (¬ (j = c - 1 ∨ j = c) →
        ops.sqrt ((sobelXAt src i j : α) ^ 2 + (sobelYAt src i j : α) ^ 2) = 0) := by
    intro i j hi0 hi1 hj0 hj1
    obtain ⟨hx, hy⟩ := sobelAt_step (α := α) src c a b hsrc i j hi0 hi1 hj0 hj1
    constructor
    · intro hj
      have e1 : ¬ (j + 1 < c) := by omega
      have e2 : j - 1 < c := by omega
      rw [hx, hy, if_neg e1, if_pos e2]
      simp only [ne_eq, OfNat.ofNat_ne_zero, not_false_eq_true, zero_pow, add_zero, hsqrt]
      rw [abs_mul, abs_of_pos (by norm_num : (0 : α) < 4)]
    · intro hj
      have e : (j + 1 < c ↔ j - 1 < c) := by omega
      rw [hx, hy]
      simp only [e, sub_self, mul_zero, ne_eq, OfNat.ofNat_ne_zero, not_false_eq_true, zero_pow,
        add_zero]
      have := hsqrt 0
      simpa using this
  refine ⟨_, sobel_eq ops src hch, ?_, ?_⟩
  · intro i hi0 hi1
    have hin1 : (0 ≤ i ∧ i < (src.rows : Int)) ∧ 0 ≤ c - 1 ∧ c - 1 < (src.cols : Int) := by omega
    have hint1 : (1 ≤ i ∧ i < (src.rows : Int) - 1) ∧ 1 ≤ c - 1 ∧ c - 1 < (src.cols : Int) - 1 := by
      omega
    have hin2 : (0 ≤ i ∧ i < (src.rows : Int)) ∧ 0 ≤ c ∧ c < (src.cols : Int) := by omega
    have hint2 : (1 ≤ i ∧ i < (src.rows : Int) - 1) ∧ 1 ≤ c ∧ c < (src.cols : Int) - 1 := by
      omega
    simp only [Mat.get, if_pos hin1, if_pos hint1, if_pos hin2, if_pos hint2]
    exact ⟨(main i (c - 1) hi0 hi1 (by omega) (by omega)).1 (Or.inl rfl),
      (main i c hi0 hi1 (by omega) (by omega)).1 (Or.inr rfl)⟩
  intro i j hi0 hi1 hj0 hj1
  obtain ⟨hval, hzero⟩ := main i j hi0 hi1 hj0 hj1
  have hin : (0 ≤ i ∧ i < (src.rows : Int)) ∧ 0 ≤ j ∧ j < (src.cols : Int) := by omega
  have hint : (1 ≤ i ∧ i < (src.rows : Int) - 1) ∧ 1 ≤ j ∧ j < (src.cols : Int) - 1 :=
    ⟨⟨hi0, hi1⟩, hj0, hj1⟩
  simp only [Mat.get, if_pos hin, if_pos hint]
  refine ⟨hval, hzero, ?_, ?_⟩
  · by_cases hj : j = c - 1 ∨ j = c
    · rw [hval hj]
    · rw [hzero hj]
      positivity
  · intro hab
    constructor
    · intro h
      by_contra hj
      rw [hzero hj] at h
      have hne : (b : α) - (a : α) ≠ 0 := by
        intro h0
        exact hab (Nat.cast_injective (R := α) (sub_eq_zero.mp h0).symm)
      have : (0 : α) < 4 * |(b : α) - (a : α)| := by positivity
      exact absurd h (ne_of_lt this)
    · exact hval

theorem sobel_step_edge_witness :
    ∃ mag : Mat ℚ, sobel ratOps (stepImage 4 6 3 10 50) = some mag ∧
      (∀ i : Int, 1 ≤ i → i < ((stepImage 4 6 3 10 50).rows : Int) - 1 →
        mag.get i (3 - 1) = 4 * |((50 : Nat) : ℚ) - ((10 : Nat) : ℚ)|
          ∧ mag.get i 3 = 4 * |((50 : Nat) : ℚ) - ((10 : Nat) : ℚ)|) ∧
      (∀ i j : Int, 1 ≤ i → i < ((stepImage 4 6 3 10 50).rows : Int) - 1 → 1 ≤ j →
        j < ((stepImage 4 6 3 10 50).cols : Int) - 1 →
        ((j = 3 - 1 ∨ j = 3) → mag.get i j = 4 * |((50 : Nat) : ℚ) - ((10 : Nat) : ℚ)|) ∧
        (¬ (j = 3 - 1 ∨ j = 3) → mag.get i j = 0) ∧
        mag.get i j ≤ 4 * |((50 : Nat) : ℚ) - ((10 : Nat) : ℚ)| ∧
        ((10 : Nat) ≠ 50 →
          (mag.get i j = 4 * |((50 : Nat) : ℚ) - ((10 : Nat) : ℚ)| ↔ (j = 3 - 1 ∨ j = 3)))) :=
  sobel_step_edge ratOps (fun x => by rw [pow_two]; exact Rat.sqrt_eq x)
    (stepImage 4 6 3 10 50) 3 10 50 rfl (by decide) (fun _ _ _ _ _ _ => rfl)

end SobelMagnitude


/-! ## The rational instance -/

section RatOpsLemmas

theorem lroundQ_abs_le (t : ℚ) (ht : |t| ≤ 4) : |lroundQ t| ≤ 4 := by
  obtain ⟨h1, h2⟩ := abs_le.mp ht
  unfold lroundQ
  split_ifs with h0
  · have hlo : 0 ≤ ⌊t + 1 / 2⌋ := Int.floor_nonneg.mpr (by linarith)
    have hhi : ⌊t + 1 / 2⌋ < 5 := Int.floor_lt.mpr (by push_cast; linarith)
    rw [abs_le]
    constructor <;> omega
  · have hlo : 0 ≤ ⌊-t + 1 / 2⌋ := Int.floor_nonneg.mpr (by linarith)
    have hhi : ⌊-t + 1 / 2⌋ < 5 := Int.floor_lt.mpr (by push_cast; linarith)
    rw [abs_le]
    constructor <;> omega

theorem atan2Q_abs_le (y x : ℚ) : |atan2Q y x| ≤ 4 * M_PI_4_Q := by
  have hP : M_PI_4_Q = 7853981633974483 / 10000000000000000 := rfl
  have hz0 : 0 ≤ min |y| |x| / max |y| |x| :=
    div_nonneg (le_min (abs_nonneg y) (abs_nonneg x)) (le_max_of_le_left (abs_nonneg y))
  have hz1 : min |y| |x| / max |y| |x| ≤ 1 :=
    div_le_one_of_le₀ min_le_max (le_max_of_le_left (abs_nonneg y))
  unfold atan2Q
  simp only []
  generalize min |y| |x| / max |y| |x| = z at hz0 hz1
  have ha0 : 0 ≤ z * (M_PI_4_Q + 273 / 1000 * (1 - z)) := by
    apply mul_nonneg hz0
    rw [hP]
    nlinarith
  have ha1 : z * (M_PI_4_Q + 273 / 1000 * (1 - z)) ≤ 2 * M_PI_4_Q := by
    rw [hP]
    nlinarith [mul_nonneg hz0 (sub_nonneg.mpr hz1)]
  generalize z * (M_PI_4_Q + 273 / 1000 * (1 - z)) = a at ha0 ha1
  rw [abs_le]
  split_ifs <;> constructor <;> linarith

theorem ratOps_directionInRange : ratOps.directionInRange := by
  have hP : (0 : ℚ) < M_PI_4_Q := by unfold M_PI_4_Q; norm_num
  constructor
  · apply lroundQ_abs_le
    simp
  · intro y x
    apply lroundQ_abs_le
    show |atan2Q y x / M_PI_4_Q| ≤ 4
    rw [abs_div, abs_of_pos hP, div_le_iff₀ hP]
    exact atan2Q_abs_le y x

theorem ratOps_sqrt_zero : ratOps.sqrt 0 = 0 := by
  have h := Rat.sqrt_eq 0
  rw [mul_zero, abs_zero] at h
  exact h

theorem ratOps_saturate_zero : ratOps.saturate_uchar 0 = 0 := by
  show saturateQ 0 = 0
  simp [saturateQ]

theorem GAUSSION_3x3_oddSized : GAUSSION_3x3.oddSized := by
  simp [Kernel.oddSized, GAUSSION_3x3]

end RatOpsLemmas

/-! ## Canny -/

section Canny

variable {α : Type} [LinearOrderedField α]

/-- Closed form of steps 1–2 of `canny`. -/
theorem cannyGradient_eq (ops : FloatOps α) (G : Kernel α) (src : Mat Nat)
    (hch : src.channels = 1) (hG : G.oddSized) :
    ∃ (blurred Ix Iy : Mat α),
      conv2D (fun v : Nat => (v : α)) src G = some blurred ∧
      sobelX (blurred.convertTo ops.saturate_uchar) = some Ix ∧
      sobelY (blurred.convertTo ops.saturate_uchar) = some Iy ∧
      cannyGradient ops G src = some
        ({ rows := src.rows, cols := src.cols, channels := 1,
           px := fun a b =>
             if (2 ≤ a ∧ a < (src.rows : Int) - 2) ∧ 2 ≤ b ∧ b < (src.cols : Int) - 2
             then ops.sqrt (Ix.px a b ^ 2 + Iy.px a b ^ 2) else 0 },
         { rows := src.rows, cols := src.cols, channels := 1,
           px := fun a b =>
             if (2 ≤ a ∧ a < (src.rows : Int) - 2) ∧ 2 ≤ b ∧ b < (src.cols : Int) - 2
             then ops.atan2 (Iy.px a b) (Ix.px a b) else 0 }) := by
  obtain ⟨blurred, hb, hbch⟩ : ∃ blurred : Mat α,
      conv2D (fun v : Nat => (v : α)) src G = some blurred ∧ blurred.channels = 1 :=
    ⟨_, conv2D_eq (fun v : Nat => (v : α)) src G hch hG, rfl⟩
  obtain ⟨Ix, hIx⟩ : ∃ Ix : Mat α, sobelX (blurred.convertTo ops.saturate_uchar) = some Ix :=
    ⟨_, sobelX_eq _ hbch⟩
  obtain ⟨Iy, hIy⟩ : ∃ Iy : Mat α, sobelY (blurred.convertTo ops.saturate_uchar) = some Iy :=
    ⟨_, sobelY_eq _ hbch⟩
  refine ⟨blurred, Ix, Iy, hb, hIx, hIy, ?_⟩
  unfold cannyGradient
  rw [hb, Option.some_bind]
  simp only [hIx, hIy, Option.some_bind]
  have inner : ∀ (i : Int) (s : Mat α × Mat α),
      forLoop (1 + 1) ((src.cols : Int) - (1 + 1))
          (fun j (s : Mat α × Mat α) =>
            (s.1.set i j (ops.sqrt (Ix.get i j ^ 2 + Iy.get i j ^ 2)),
              s.2.set i j (ops.atan2 (Iy.get i j) (Ix.get i j)))) s
        = (forLoop (1 + 1) ((src.cols : Int) - (1 + 1))
            (fun j d => d.set i j ((fun i j _ => ops.sqrt (Ix.get i j ^ 2 + Iy.get i j ^ 2))
              i j (d.px i j))) s.1,
          forLoop (1 + 1) ((src.cols : Int) - (1 + 1))
            (fun j d => d.set i j ((fun i j _ => ops.atan2 (Iy.get i j) (Ix.get i j))
              i j (d.px i j))) s.2) :=
    fun i s => forLoop_prod _ _
      (fun j d => d.set i j ((fun i j _ => ops.sqrt (Ix.get i j ^ 2 + Iy.get i j ^ 2))
        i j (d.px i j)))
      (fun j d => d.set i j ((fun i j _ => ops.atan2 (Iy.get i j) (Ix.get i j))
        i j (d.px i j))) s
  simp only [inner]
  rw [forLoop_prod (σ := Mat α) (τ := Mat α) _ _
    (fun i (d : Mat α) => forLoop (1 + 1) ((src.cols : Int) - (1 + 1))
      (fun j (d : Mat α) => d.set i j
        ((fun i j _ => ops.sqrt (Ix.get i j ^ 2 + Iy.get i j ^ 2)) i j (d.px i j))) d)
    (fun i (d : Mat α) => forLoop (1 + 1) ((src.cols : Int) - (1 + 1))
      (fun j (d : Mat α) => d.set i j
        ((fun i j _ => ops.atan2 (Iy.get i j) (Ix.get i j)) i j (d.px i j))) d)]
  rw [forLoop_set_grid _ _ _ _ (fun i j _ => ops.sqrt (Ix.get i j ^ 2 + Iy.get i j ^ 2)),
    forLoop_set_grid _ _ _ _ (fun i j _ => ops.atan2 (Iy.get i j) (Ix.get i j))]
  simp only [Mat.get, Mat.zeros]
  norm_num

/-- Closed form of step 3 of `canny`: inside the visited range a sample is zeroed when it is
below one of its two neighbours along the quantized direction, every other sample is kept. -/
theorem cannySuppress_eq (ops : FloatOps α) (src : Mat Nat) (Ig Id : Mat α)
    (hdir : ∀ i j : Int, |ops.lround (Id.get i j / ops.M_PI_4)| ≤ 4) :
    cannySuppress ops src Ig Id = some
      { Ig with px := fun a b =>
          if (2 ≤ a ∧ a < (src.rows : Int) - 2 - 2) ∧ 2 ≤ b ∧ b < (src.cols : Int)
          then (if cannyBelowNeighbour ops Ig Id a b then 0 else Ig.px a b)
          else Ig.px a b } := by
  have hbody : ∀ (i j : Int) (t : Mat α),
      (let index : Int := |ops.lround (Id.get i j / ops.M_PI_4)|
       if ¬ index ≤ 4 then none
       else
        match row_col_offsets.get? index.toNat with
        | none => none
        | some (drow, dcol) =>
          let r1 := i + drow
          let r2 := i - drow
          let c1 := j + dcol
          let c2 := j - dcol
          if Ig.get i j < Ig.get r1 c1 ∨ Ig.get i j < Ig.get r2 c2 then
            some (t.set i j 0)
          else some t)
        = some (t.set i j ((fun i j old =>
            if cannyBelowNeighbour ops Ig Id i j then 0 else old) i j (t.px i j))) := by
    intro i j t
    have h4 := hdir i j
    simp only [not_le, not_lt.mpr h4, if_false]
    have hlt : (|ops.lround (Id.get i j / ops.M_PI_4)|).toNat < row_col_offsets.length := by
      have : row_col_offsets.length = 8 := rfl
      omega
    rcases hget : row_col_offsets.get? (|ops.lround (Id.get i j / ops.M_PI_4)|).toNat with
      _ | ⟨drow, dcol⟩
    · rw [List.get?_eq_none] at hget
      omega
    · have hoff : cannyOffset ops Id i j = (drow, dcol) := by
        unfold cannyOffset; rw [hget]; rfl
      simp only [cannyBelowNeighbour, hoff]
      split_ifs with hc
      · rfl
      · rw [Mat.set_self]
  unfold cannySuppress
  simp only []
  rw [forLoopM_eq_some _ _ _ (fun i t => forLoop 2 (src.cols : Int)
    (fun j t => t.set i j ((fun i j old =>
      if cannyBelowNeighbour ops Ig Id i j then 0 else old) i j (t.px i j))) t)]
  · rw [forLoop_set_grid]
    norm_num
  · intro i t
    have e : (1 + 1 : Int) = 2 := rfl
    rw [e]
    exact forLoopM_eq_some _ _ _ _ (fun j t => hbody i j t) t

/-- Steps 1–3 of `canny` return a thinned magnitude whenever the direction index passes the
assertion. -/
theorem cannyThinned_eq (ops : FloatOps α) (G : Kernel α) (src : Mat Nat)
    (hch : src.channels = 1) (hG : G.oddSized) (hdir : ops.directionInRange) :
    ∃ Ig Id : Mat α, cannyGradient ops G src = some (Ig, Id) ∧
      cannyThinned ops G src = some
        { Ig with px := fun a b =>
            if (2 ≤ a ∧ a < (src.rows : Int) - 2 - 2) ∧ 2 ≤ b ∧ b < (src.cols : Int)
            then (if cannyBelowNeighbour ops Ig Id a b then 0 else Ig.px a b)
            else Ig.px a b } := by
  obtain ⟨blurred, Ix, Iy, -, -, -, hgrad⟩ := cannyGradient_eq ops G src hch hG
  refine ⟨_, _, hgrad, ?_⟩
  unfold cannyThinned
  rw [hgrad, Option.some_bind]
  apply cannySuppress_eq
  intro i j
  simp only [Mat.get]
  split_ifs
  · exact hdir.2 _ _
  · exact hdir.1

/-- Closed form of the threshold loop of `canny`. -/
theorem canny_eq (ops : FloatOps α) (G : Kernel α) (src : Mat Nat) (lb ub : α) :
    canny ops G src lb ub = (cannyThinned ops G src).bind fun Ig => some
      { rows := src.rows, cols := src.cols, channels := 1,
        px := fun a b =>
          if (0 ≤ a ∧ a < (src.rows : Int)) ∧ 0 ≤ b ∧ b < (src.cols : Int)
          then (if Ig.get a b > ub then 255 else 0) else 0 } := by
  unfold canny
  congr 1
  funext Ig
  have hbody : ∀ (i j : Int) (m : Mat Nat),
      (if Ig.get i j > ub then m.set i j 255 else m)
        = m.set i j ((fun i j old => if Ig.get i j > ub then 255 else old) i j (m.px i j)) := by
    intro i j m
    split_ifs with hc
    · simp only [hc, if_true]
    · simp only [hc, if_false, Mat.set_self]
  simp only [hbody]
  rw [forLoop_set_grid _ _ _ _ (fun i j old => if Ig.get i j > ub then 255 else old)]
  rfl

/-- C9: `canny` returns a mask of the size of the input whose samples are 0 or 255; a position
is 255 exactly when the thinned gradient magnitude there is strictly greater than `ub`, and a
position whose thinned magnitude equals `ub` is 0. -/
theorem canny_mask_threshold (ops : FloatOps α) (G : Kernel α) (src : Mat Nat) (lb ub : α)
    (hch : src.channels = 1) (hG : G.oddSized) (hdir : ops.directionInRange) :
    ∃ (thinned : Mat α) (mask : Mat Nat),
      cannyThinned ops G src = some thinned ∧ canny ops G src lb ub = some mask ∧
      mask.rows = src.rows ∧ mask.cols = src.cols ∧
      ∀ i j : Int, 0 ≤ i → i < src.rows → 0 ≤ j → j < src.cols →
        (mask.get i j = 0 ∨ mask.get i j = 255) ∧
        (mask.get i j = 255 ↔ ub < thinned.get i j) ∧
        (thinned.get i j = ub → mask.get i j = 0) := by
  obtain ⟨thinned, hthin⟩ : ∃ thinned, cannyThinned ops G src = some thinned := by
    obtain ⟨Ig, Id, -, h⟩ := cannyThinned_eq ops G src hch hG hdir
    exact ⟨_, h⟩
  refine ⟨thinned,
    { rows := src.rows, cols := src.cols, channels := 1,
      px := fun a b =>
        if (0 ≤ a ∧ a < (src.rows : Int)) ∧ 0 ≤ b ∧ b < (src.cols : Int)
        then (if thinned.get a b > ub then 255 else 0) else 0 },
    hthin, ?_, rfl, rfl, ?_⟩
  · rw [canny_eq, hthin, Option.some_bind]
  · intro i j hi0 hi1 hj0 hj1
    have hin : (0 ≤ i ∧ i < (src.rows : Int)) ∧ 0 ≤ j ∧ j < (src.cols : Int) :=
      ⟨⟨hi0, hi1⟩, hj0, hj1⟩
    simp only [Mat.get, if_pos hin, gt_iff_lt]
    split_ifs with hc
    · refine ⟨Or.inr rfl, ⟨fun _ => hc, fun _ => rfl⟩, ?_⟩
      intro he
      exact absurd hc (by rw [he]; exact lt_irrefl _)
    · refine ⟨Or.inl rfl, ⟨fun h => ?_, fun h => absurd h hc⟩, fun _ => rfl⟩
      exact absurd h (by decide)

theorem windowSum_eq_zero {β : Type} (toF : β → α) (src : Mat β) (kernel : Kernel α)
    (a b : Int)
    (h : ∀ m ∈ Finset.Icc (-kernel.r1) kernel.r1, ∀ n ∈ Finset.Icc (-kernel.r2) kernel.r2,
      toF (src.px (a + m) (b + n)) = 0) :
    windowSum toF src kernel a b = 0 := by
  unfold windowSum
  refine Finset.sum_eq_zero fun m hm => Finset.sum_eq_zero fun n hn => ?_
  rw [h m hm n hn, zero_mul]

/-- On an all-zero image every stage of `canny` before the threshold is zero, so the mask is
decided by the sign of `ub` alone. -/
theorem canny_zero_image_eq (ops : FloatOps α) (G : Kernel α) (src : Mat Nat) (lb ub : α)
    (hch : src.channels = 1) (hG : G.oddSized) (hdir : ops.directionInRange)
    (hsqrt : ops.sqrt 0 = 0) (hsat : ops.saturate_uchar 0 = 0)
    (hzero : ∀ i j : Int, 0 ≤ i → i < src.rows → 0 ≤ j → j < src.cols → src.get i j = 0) :
    canny ops G src lb ub = some
      { rows := src.rows, cols := src.cols, channels := 1,
        px := fun a b =>
          if (0 ≤ a ∧ a < (src.rows : Int)) ∧ 0 ≤ b ∧ b < (src.cols : Int)
          then (if (0 : α) > ub then 255 else 0) else 0 } := by
  obtain ⟨blurred, Ix, Iy, hb, hIx, hIy, hgrad⟩ := cannyGradient_eq ops G src hch hG
  obtain ⟨Ig, Id, hgrad2, hthin⟩ := cannyThinned_eq ops G src hch hG hdir
  -- the blurred image is zero everywhere
  have hblur : ∀ a b : Int, blurred.px a b = 0 := by
    rw [conv2D_eq _ src G hch hG] at hb
    have hb2 := (Option.some.inj hb).symm
    intro a b
    rw [hb2]
    simp only []
    split_ifs with hc
    · apply windowSum_eq_zero
      intro m hm n hn
      rw [Finset.mem_Icc] at hm hn
      have hr1 : 0 ≤ G.r1 := Int.natCast_nonneg _
      have hr2 : 0 ≤ G.r2 := Int.natCast_nonneg _
      have := hzero (a + m) (b + n) (by omega) (by omega) (by omega) (by omega)
      simp only [Mat.get] at this
      rw [this, Nat.cast_zero]
    · rfl
  have hblur8 : ∀ a b : Int, ((blurred.convertTo ops.saturate_uchar).px a b : α) = 0 := by
    intro a b
    simp only [Mat.convertTo, hblur, hsat, Nat.cast_zero]
  have hIx0 : ∀ a b : Int, Ix.px a b = 0 := by
    rw [sobelX_eq _ (show (blurred.convertTo ops.saturate_uchar).channels = 1 from by
      rw [conv2D_eq _ src G hch hG] at hb; rw [← Option.some.inj hb]; rfl)] at hIx
    have h2 := (Option.some.inj hIx).symm
    intro a b
    rw [h2]
    simp only []
    split_ifs
    · exact windowSum_eq_zero _ _ _ _ _ (fun m _ n _ => hblur8 _ _)
    · rfl
  have hIy0 : ∀ a b : Int, Iy.px a b = 0 := by
    rw [sobelY_eq _ (show (blurred.convertTo ops.saturate_uchar).channels = 1 from by
      rw [conv2D_eq _ src G hch hG] at hb; rw [← Option.some.inj hb]; rfl)] at hIy
    have h2 := (Option.some.inj hIy).symm
    intro a b
    rw [h2]
    simp only []
    split_ifs
    · exact windowSum_eq_zero _ _ _ _ _ (fun m _ n _ => hblur8 _ _)
    · rfl
  have hIg0 : ∀ a b : Int, Ig.px a b = 0 := by
    have h2 := (Prod.mk.inj (Option.some.inj (hgrad.symm.trans hgrad2))).1.symm
    intro a b
    rw [h2]
    simp only [hIx0, hIy0]
    split_ifs
    · simpa using hsqrt
    · rfl
  rw [canny_eq, hthin, Option.some_bind]
  simp only [Option.some.injEq, Mat.mk.injEq, true_and, Mat.get]
  funext a b
  simp only [hIg0, ite_self]

/-- C10 (amended): on an image whose samples are all 0, with `lb < ub` and `0 ≤ ub`, `canny`
returns a mask of the size of the input whose samples are all 0. -/
theorem canny_zero_image (ops : FloatOps α) (G : Kernel α) (src : Mat Nat) (lb ub : α)
    (hch : src.channels = 1) (hG : G.oddSized) (hdir : ops.directionInRange)
    (hsqrt : ops.sqrt 0 = 0) (hsat : ops.saturate_uchar 0 = 0)
    (hzero : ∀ i j : Int, 0 ≤ i → i < src.rows → 0 ≤ j → j < src.cols → src.get i j = 0)
    (_hlt : lb < ub) (hub : 0 ≤ ub) :
    ∃ mask : Mat Nat, canny ops G src lb ub = some mask ∧
      mask.rows = src.rows ∧ mask.cols = src.cols ∧
      ∀ i j : Int, 0 ≤ i → i < src.rows → 0 ≤ j → j < src.cols → mask.get i j = 0 := by
  refine ⟨_, canny_zero_image_eq ops G src lb ub hch hG hdir hsqrt hsat hzero, rfl, rfl, ?_⟩
  intro i j _ _ _ _
  simp only [Mat.get, gt_iff_lt, not_lt.mpr hub, if_false, ite_self]

theorem canny_mask_threshold_witness :
    ∃ (thinned : Mat ℚ) (mask : Mat Nat),
      cannyThinned ratOps GAUSSION_3x3 (stepImage 9 9 4 10 200) = some thinned ∧
      canny ratOps GAUSSION_3x3 (stepImage 9 9 4 10 200) 1 100 = some mask ∧
      mask.rows = (stepImage 9 9 4 10 200).rows ∧ mask.cols = (stepImage 9 9 4 10 200).cols ∧
      ∀ i j : Int, 0 ≤ i → i < (stepImage 9 9 4 10 200).rows → 0 ≤ j →
        j < (stepImage 9 9 4 10 200).cols →
        (mask.get i j = 0 ∨ mask.get i j = 255) ∧
        (mask.get i j = 255 ↔ (100 : ℚ) < thinned.get i j) ∧
        (thinned.get i j = 100 → mask.get i j = 0) :=
  canny_mask_threshold ratOps GAUSSION_3x3 (stepImage 9 9 4 10 200) 1 100 rfl
    GAUSSION_3x3_oddSized ratOps_directionInRange

theorem canny_zero_image_witness :
    ∃ mask : Mat Nat, canny ratOps GAUSSION_3x3 (constImage 6 7 0) 1 2 = some mask ∧
      mask.rows = (constImage 6 7 0).rows ∧ mask.cols = (constImage 6 7 0).cols ∧
      ∀ i j : Int, 0 ≤ i → i < (constImage 6 7 0).rows → 0 ≤ j → j < (constImage 6 7 0).cols →
        mask.get i j = 0 :=
  canny_zero_image ratOps GAUSSION_3x3 (constImage 6 7 0) 1 2 rfl GAUSSION_3x3_oddSized
    ratOps_directionInRange ratOps_sqrt_zero ratOps_saturate_zero (fun _ _ _ _ _ _ => rfl)
    (by norm_num) (by norm_num)

/-- C10 as stated fails: with the thresholds `lb = -2 < ub = -1` the all-zero 1×1 image is
marked as an edge, since its zero magnitude exceeds the negative `ub`. -/
theorem canny_zero_image_negative_ub :
    ((-2 : ℚ) < -1) ∧ (∀ i j : Int, (constImage 1 1 0).get i j = 0) ∧
      ∃ mask : Mat Nat, canny ratOps GAUSSION_3x3 (constImage 1 1 0) (-2) (-1) = some mask ∧
        mask.get 0 0 = 255 := by
  refine ⟨by norm_num, fun _ _ => rfl, _,
    canny_zero_image_eq ratOps GAUSSION_3x3 (constImage 1 1 0) (-2) (-1) rfl
      GAUSSION_3x3_oddSized ratOps_directionInRange ratOps_sqrt_zero ratOps_saturate_zero
      (fun _ _ _ _ _ _ => rfl), ?_⟩
  simp [Mat.get, constImage]

end Canny

/-! ## Index safety of `conv2D` -/

section ConvSafety

variable {α β : Type}

/-- C20: for an image of any size and a rectangular kernel with odd dimensions, every index used
by the loops of `conv2D` is in range: each source read `src[i+m, j+n]` and each output write
`dst[i, j]` lies inside `rows × cols`, and each kernel read `kernel[m+r1][n+r2]` lies inside the
kernel. -/
theorem conv2D_accesses_in_range (src : Mat β) (kernel : Kernel α) (r1 r2 : Nat)
    (hrows : kernel.length = 2 * r1 + 1) (hcols : ∀ row ∈ kernel, row.length = 2 * r2 + 1) :
    ∀ a ∈ conv2DAccesses src kernel, a.inRange src.rows src.cols kernel := by
  have h0 : (kernel.getD 0 []).length = 2 * r2 + 1 := by
    cases kernel with
    | nil => simp at hrows
    | cons row rest => simpa using hcols row (by simp)
  have e1 : ((kernel.length / 2 : Nat) : Int) = (r1 : Int) := by
    rw [hrows]; congr 1; omega
  have e2 : (((kernel.getD 0 []).length / 2 : Nat) : Int) = (r2 : Int) := by
    rw [h0]; congr 1; omega
  unfold conv2DAccesses
  simp only [e1, e2]
  apply forLoop_invariant (fun acc : List Access => ∀ a ∈ acc, a.inRange src.rows src.cols kernel)
  · intro a ha; simp at ha
  intro i acc hi0 hi1 hacc
  apply forLoop_invariant (fun acc : List Access => ∀ a ∈ acc, a.inRange src.rows src.cols kernel)
  · exact hacc
  intro j acc hj0 hj1 hacc
  intro a ha
  rw [List.mem_append] at ha
  rcases ha with ha | ha
  · revert a
    apply forLoop_invariant
      (fun acc : List Access => ∀ a ∈ acc, a.inRange src.rows src.cols kernel)
    · exact hacc
    intro m acc hm0 hm1 hacc
    apply forLoop_invariant
      (fun acc : List Access => ∀ a ∈ acc, a.inRange src.rows src.cols kernel)
    · exact hacc
    intro n acc hn0 hn1 hacc a ha
    rw [List.mem_append] at ha
    rcases ha with ha | ha
    · exact hacc a ha
    · simp only [List.mem_cons, List.mem_singleton, List.not_mem_nil, or_false] at ha
      rcases ha with rfl | rfl
      · simp only [Access.inRange]
        omega
      · have hlt : (m + (r1 : Int)).toNat < kernel.length := by omega
        have hrow : (kernel.getD (m + (r1 : Int)).toNat []).length = 2 * r2 + 1 := by
          rw [List.getD_eq_getElem _ _ hlt]
          exact hcols _ (List.getElem_mem _)
        simp only [Access.inRange, hrow, hrows]
        push_cast
        omega
  · simp only [List.mem_singleton] at ha
    subst ha
    simp only [Access.inRange]
    omega

theorem conv2D_accesses_in_range_witness :
    (Access.src 0 0 ∈ conv2DAccesses demoImage demoKernel
      ∧ Access.kernel 2 2 ∈ conv2DAccesses demoImage demoKernel
      ∧ Access.dst 1 1 ∈ conv2DAccesses demoImage demoKernel) ∧
    ∀ a ∈ conv2DAccesses demoImage demoKernel,
      a.inRange demoImage.rows demoImage.cols demoKernel :=
  ⟨by decide, conv2D_accesses_in_range demoImage demoKernel 1 1 rfl (by decide)⟩

end ConvSafety

/-! ## The thresholds and the direction index of `canny` -/

section CannyIndex

variable {α : Type} [LinearOrderedField α]

/-- C18: the result of `canny` does not depend on the lower threshold: for every image, every
`ub` and every two values `lb1`, `lb2` the two calls agree, as results and at every position of
the returned masks. -/
theorem canny_independent_of_lb (ops : FloatOps α) (G : Kernel α) (src : Mat Nat)
    (lb1 lb2 ub : α) :
    canny ops G src lb1 ub = canny ops G src lb2 ub ∧
      ∀ m1 m2 : Mat Nat, canny ops G src lb1 ub = some m1 → canny ops G src lb2 ub = some m2 →
        m1.rows = m2.rows ∧ m1.cols = m2.cols ∧ ∀ i j : Int, m1.get i j = m2.get i j := by
  have h : canny ops G src lb1 ub = canny ops G src lb2 ub := by
    rw [canny_eq, canny_eq]
  refine ⟨h, ?_⟩
  intro m1 m2 h1 h2
  rw [h, h2] at h1
  cases h1
  exact ⟨rfl, rfl, fun _ _ => rfl⟩

/-- A rounding `lround` and an `atan2` whose value stays below `4.5 · M_PI_4` in magnitude keep
the direction index within `0..4`. -/
theorem directionInRange_of_library (ops : FloatOps α) (hpi : 0 < ops.M_PI_4)
    (hatan : ∀ y x : α, |ops.atan2 y x| < 9 / 2 * ops.M_PI_4)
    (hround : ∀ t : α, |((ops.lround t : Int) : α) - t| ≤ 1 / 2) :
    ops.directionInRange := by
  have key : ∀ v : α, |v| < 9 / 2 * ops.M_PI_4 → |ops.lround (v / ops.M_PI_4)| ≤ 4 := by
    intro v hv
    have ht : |v / ops.M_PI_4| < 9 / 2 := by
      rw [abs_div, abs_of_pos hpi, div_lt_iff₀ hpi]
      exact hv
    have hr := hround (v / ops.M_PI_4)
    have h5 : ((|ops.lround (v / ops.M_PI_4)| : Int) : α) < 5 := by
      rw [Int.cast_abs]
      have h1 := abs_lt.mp ht
      have h2 := abs_le.mp hr
      rw [abs_lt]
      constructor <;> linarith [h1.1, h1.2, h2.1, h2.2]
    have h5' : |ops.lround (v / ops.M_PI_4)| < 5 := by
      have : ((|ops.lround (v / ops.M_PI_4)| : Int) : α) < ((5 : Int) : α) := by
        simpa using h5
      exact Int.cast_lt.mp this
    omega
  constructor
  · apply key
    rw [abs_zero]
    positivity
  · intro y x
    exact key _ (hatan y x)

/-- Wherever `canny` stored a direction, or left it at zero, the index passes the assertion. -/
theorem cannyGradient_direction (ops : FloatOps α) (G : Kernel α) (src : Mat Nat)
    (hch : src.channels = 1) (hG : G.oddSized) (hdir : ops.directionInRange)
    (Ig Id : Mat α) (hgrad : cannyGradient ops G src = some (Ig, Id)) (i j : Int) :
    |ops.lround (Id.get i j / ops.M_PI_4)| ≤ 4 := by
  obtain ⟨blurred, Ix, Iy, -, -, -, hgrad2⟩ := cannyGradient_eq ops G src hch hG
  have h2 := (Prod.mk.inj (Option.some.inj (hgrad2.symm.trans hgrad))).2.symm
  rw [h2]
  simp only [Mat.get]
  split_ifs
  · exact hdir.2 _ _
  · exact hdir.1

/-- An index within `0..4` finds its entry among the first five of the offset table. -/
theorem row_col_offsets_lookup (index : Int) (h0 : 0 ≤ index) (h4 : index ≤ 4) :
    ∃ off, row_col_offsets.get? index.toNat = some off ∧ off ∈ row_col_offsets.take 5 := by
  have hn : index.toNat ≤ 4 := by omega
  generalize index.toNat = n at hn
  interval_cases n <;> exact ⟨_, rfl, by decide⟩

/-- C19: with an `atan2` whose value stays below `4.5 · M_PI_4` in magnitude (its range is
`[-π, π]`) and an `lround` within `1/2` of its argument, the assertion `index <= 4` of `canny`
never fails: the suppression stage returns, and at every position the index
`|lround(Id[i,j] / M_PI_4)|` lies in `0..4` and finds its entry among the first five of the
8-entry offset table. -/
theorem canny_direction_index_le_four (ops : FloatOps α) (hpi : 0 < ops.M_PI_4)
    (hatan : ∀ y x : α, |ops.atan2 y x| < 9 / 2 * ops.M_PI_4)
    (hround : ∀ t : α, |((ops.lround t : Int) : α) - t| ≤ 1 / 2)
    (G : Kernel α) (src : Mat Nat) (hch : src.channels = 1) (hG : G.oddSized) :
    ∃ Ig Id thinned : Mat α, cannyGradient ops G src = some (Ig, Id) ∧
      cannySuppress ops src Ig Id = some thinned ∧
      ∀ i j : Int,
        (0 ≤ |ops.lround (Id.get i j / ops.M_PI_4)| ∧ |ops.lround (Id.get i j / ops.M_PI_4)| ≤ 4) ∧
        ∃ off, row_col_offsets.get? (|ops.lround (Id.get i j / ops.M_PI_4)|).toNat = some off ∧
          off ∈ row_col_offsets.take 5 := by
  have hdir := directionInRange_of_library ops hpi hatan hround
  obtain ⟨blurred, Ix, Iy, -, -, -, hgrad⟩ := cannyGradient_eq ops G src hch hG
  have hidx := cannyGradient_direction ops G src hch hG hdir _ _ hgrad
  refine ⟨_, _, _, hgrad, cannySuppress_eq ops src _ _ hidx, ?_⟩
  intro i j
  exact ⟨⟨abs_nonneg _, hidx i j⟩, row_col_offsets_lookup _ (abs_nonneg _) (hidx i j)⟩

end CannyIndex

section RatOpsContracts

theorem lroundQ_near (t : ℚ) : |((lroundQ t : Int) : ℚ) - t| ≤ 1 / 2 := by
  unfold lroundQ
  split_ifs with h0
  · have h1 := Int.floor_le (t + 1 / 2)
    have h2 := Int.lt_floor_add_one (t + 1 / 2)
    rw [abs_le]
    constructor <;> linarith
  · have h1 := Int.floor_le (-t + 1 / 2)
    have h2 := Int.lt_floor_add_one (-t + 1 / 2)
    rw [abs_le]
    push_cast
    constructor <;> linarith

theorem atan2Q_abs_lt (y x : ℚ) : |atan2Q y x| < 9 / 2 * M_PI_4_Q := by
  have hP : (0 : ℚ) < M_PI_4_Q := by unfold M_PI_4_Q; norm_num
  have := atan2Q_abs_le y x
  linarith

theorem canny_direction_index_le_four_witness :
    ∃ Ig Id thinned : Mat ℚ,
      cannyGradient ratOps GAUSSION_3x3 (stepImage 9 9 4 10 200) = some (Ig, Id) ∧
      cannySuppress ratOps (stepImage 9 9 4 10 200) Ig Id = some thinned ∧
      ∀ i j : Int,
        (0 ≤ |ratOps.lround (Id.get i j / ratOps.M_PI_4)|
          ∧ |ratOps.lround (Id.get i j / ratOps.M_PI_4)| ≤ 4) ∧
        ∃ off, row_col_offsets.get? (|ratOps.lround (Id.get i j / ratOps.M_PI_4)|).toNat
            = some off ∧ off ∈ row_col_offsets.take 5 :=
  canny_direction_index_le_four ratOps (by show (0 : ℚ) < M_PI_4_Q; unfold M_PI_4_Q; norm_num)
    atan2Q_abs_lt lroundQ_near GAUSSION_3x3 (stepImage 9 9 4 10 200) rfl GAUSSION_3x3_oddSized

end RatOpsContracts

/-! ## The range of the suppression loop of `canny` -/

section SuppressRange

variable {α : Type} [LinearOrderedField α]

theorem saturateQ_natCast (n : Nat) (h : n ≤ 255) : saturateQ (n : ℚ) = n := by
  unfold saturateQ
  simp only [Int.floor_natCast, Int.cast_natCast, sub_self]
  norm_num
  split_ifs <;> omega

theorem blurred_step (a b : Int) (hb0 : 1 ≤ b) (hb1 : b ≤ 4) :
    windowSum (fun v : Nat => (v : ℚ)) (stepImage 5 6 4 0 16) GAUSSION_3x3 a b
      = if b ≤ 2 then 0 else if b = 3 then 4 else 12 := by
  unfold GAUSSION_3x3
  rw [windowSum_3x3]
  simp only [stepImage]
  interval_cases b <;> norm_num

theorem blurred8_step (blurred : Mat ℚ)
    (hb : conv2D (fun v : Nat => (v : ℚ)) (stepImage 5 6 4 0 16) GAUSSION_3x3 = some blurred)
    (a : Int) (ha0 : 1 ≤ a) (ha1 : a ≤ 3) :
    (blurred.convertTo ratOps.saturate_uchar).px a 1 = 0
      ∧ (blurred.convertTo ratOps.saturate_uchar).px a 2 = 0
      ∧ (blurred.convertTo ratOps.saturate_uchar).px a 3 = 4
      ∧ (blurred.convertTo ratOps.saturate_uchar).px a 4 = 12 := by
  rw [conv2D_eq _ _ _ rfl GAUSSION_3x3_oddSized] at hb
  have hb2 := (Option.some.inj hb).symm
  subst hb2
  have e1 : Kernel.r1 GAUSSION_3x3 = 1 := by simp [Kernel.r1, GAUSSION_3x3]
  have e2 : Kernel.r2 GAUSSION_3x3 = 1 := by simp [Kernel.r2, GAUSSION_3x3]
  have hin : ∀ b : Int, 1 ≤ b → b ≤ 4 →
      ((1 ≤ a ∧ a < (((stepImage 5 6 4 0 16).rows : Nat) : Int) - 1)
        ∧ 1 ≤ b ∧ b < (((stepImage 5 6 4 0 16).cols : Nat) : Int) - 1) := by
    intro b _ _
    simp only [stepImage]; omega
  have s0 : saturateQ 0 = 0 := by exact_mod_cast saturateQ_natCast 0 (by norm_num)
  have s4 : saturateQ 4 = 4 := by exact_mod_cast saturateQ_natCast 4 (by norm_num)
  have s12 : saturateQ 12 = 12 := by exact_mod_cast saturateQ_natCast 12 (by norm_num)
  refine ⟨?_, ?_, ?_, ?_⟩
  · simp only [Mat.convertTo, ratOps, e1, e2, if_pos (hin 1 (by norm_num) (by norm_num)),
      blurred_step a 1 (by norm_num) (by norm_num)]
    norm_num [s0]
  · simp only [Mat.convertTo, ratOps, e1, e2, if_pos (hin 2 (by norm_num) (by norm_num)),
      blurred_step a 2 (by norm_num) (by norm_num)]
    norm_num [s0]
  · simp only [Mat.convertTo, ratOps, e1, e2, if_pos (hin 3 (by norm_num) (by norm_num)),
      blurred_step a 3 (by norm_num) (by norm_num)]
    norm_num [s4]
  · simp only [Mat.convertTo, ratOps, e1, e2, if_pos (hin 4 (by norm_num) (by norm_num)),
      blurred_step a 4 (by norm_num) (by norm_num)]
    norm_num [s12]

/-- Pointwise form of `cannyGradient_eq`, with the pointwise form of the two Sobel passes. -/
theorem cannyGradient_px (ops : FloatOps α) (G : Kernel α) (src : Mat Nat)
    (hch : src.channels = 1) (hG : G.oddSized) :
    ∃ (blurred Ix Iy Ig Id : Mat α),
      conv2D (fun v : Nat => (v : α)) src G = some blurred ∧
      cannyGradient ops G src = some (Ig, Id) ∧
      (∀ a b : Int, Ix.px a b =
        if (1 ≤ a ∧ a < (src.rows : Int) - 1) ∧ 1 ≤ b ∧ b < (src.cols : Int) - 1
        then sobelXAt (blurred.convertTo ops.saturate_uchar) a b else 0) ∧
      (∀ a b : Int, Iy.px a b =
        if (1 ≤ a ∧ a < (src.rows : Int) - 1) ∧ 1 ≤ b ∧ b < (src.cols : Int) - 1
        then sobelYAt (blurred.convertTo ops.saturate_uchar) a b else 0) ∧
      (∀ a b : Int, Ig.px a b =
        if (2 ≤ a ∧ a < (src.rows : Int) - 2) ∧ 2 ≤ b ∧ b < (src.cols : Int) - 2
        then ops.sqrt (Ix.px a b ^ 2 + Iy.px a b ^ 2) else 0) ∧
      (∀ a b : Int, Id.px a b =
        if (2 ≤ a ∧ a < (src.rows : Int) - 2) ∧ 2 ≤ b ∧ b < (src.cols : Int) - 2
        then ops.atan2 (Iy.px a b) (Ix.px a b) else 0) := by
  obtain ⟨blurred, Ix, Iy, hb, hIx, hIy, hgrad⟩ := cannyGradient_eq ops G src hch hG
  have hb2 := hb
  rw [conv2D_eq _ src G hch hG] at hb2
  have hbl := (Option.some.inj hb2).symm
  have hch2 : (blurred.convertTo ops.saturate_uchar).channels = 1 := by rw [hbl]; rfl
  have hr2 : (blurred.convertTo ops.saturate_uchar).rows = src.rows := by rw [hbl]; rfl
  have hc2 : (blurred.convertTo ops.saturate_uchar).cols = src.cols := by rw [hbl]; rfl
  rw [sobelX_eq _ hch2] at hIx
  rw [sobelY_eq _ hch2] at hIy
  have hIx2 := (Option.some.inj hIx).symm
  have hIy2 := (Option.some.inj hIy).symm
  refine ⟨blurred, Ix, Iy, _, _, hb, hgrad, ?_, ?_, fun _ _ => rfl, fun _ _ => rfl⟩
  · intro a b
    rw [hIx2, hr2, hc2]
  · intro a b
    rw [hIy2, hr2, hc2]

theorem canny_step_5x6_gradient :
    ∃ Ig Id : Mat ℚ, cannyGradient ratOps GAUSSION_3x3 (stepImage 5 6 4 0 16) = some (Ig, Id) ∧
      Ig.px 2 2 = 16 ∧ Ig.px 2 3 = 48 ∧ Id.px 2 2 = 0 := by
  obtain ⟨blurred, Ix, Iy, Ig, Id, hb, hgrad, hIx, hIy, hIg, hId⟩ :=
    cannyGradient_px ratOps GAUSSION_3x3 (stepImage 5 6 4 0 16) rfl GAUSSION_3x3_oddSized
  obtain ⟨a11, a12, a13, a14⟩ := blurred8_step blurred hb 1 (by norm_num) (by norm_num)
  obtain ⟨a21, a22, a23, a24⟩ := blurred8_step blurred hb 2 (by norm_num) (by norm_num)
  obtain ⟨a31, a32, a33, a34⟩ := blurred8_step blurred hb 3 (by norm_num) (by norm_num)
  have hx22 : (sobelXAt (blurred.convertTo ratOps.saturate_uchar) 2 2 : ℚ) = 16 := by
    simp only [sobelXAt, sobelX_kernel, windowSum_3x3]
    norm_num [a11, a12, a13, a21, a22, a23, a31, a32, a33]
  have hy22 : (sobelYAt (blurred.convertTo ratOps.saturate_uchar) 2 2 : ℚ) = 0 := by
    simp only [sobelYAt, sobelY_kernel, windowSum_3x3]
    norm_num [a11, a12, a13, a21, a22, a23, a31, a32, a33]
  have hx23 : (sobelXAt (blurred.convertTo ratOps.saturate_uchar) 2 3 : ℚ) = 48 := by
    simp only [sobelXAt, sobelX_kernel, windowSum_3x3]
    norm_num [a12, a13, a14, a22, a23, a24, a32, a33, a34]
  have hy23 : (sobelYAt (blurred.convertTo ratOps.saturate_uchar) 2 3 : ℚ) = 0 := by
    simp only [sobelYAt, sobelY_kernel, windowSum_3x3]
    norm_num [a12, a13, a14, a22, a23, a24, a32, a33, a34]
  have hrows : (((stepImage 5 6 4 0 16).rows : Nat) : Int) = 5 := rfl
  have hcols : (((stepImage 5 6 4 0 16).cols : Nat) : Int) = 6 := rfl
  rw [hrows, hcols] at hIx hIy hIg hId
  have ix22 : Ix.px 2 2 = 16 := by rw [hIx, if_pos (by norm_num), hx22]
  have iy22 : Iy.px 2 2 = 0 := by rw [hIy, if_pos (by norm_num), hy22]
  have ix23 : Ix.px 2 3 = 48 := by rw [hIx, if_pos (by norm_num), hx23]
  have iy23 : Iy.px 2 3 = 0 := by rw [hIy, if_pos (by norm_num), hy23]
  have q16 : ratOps.sqrt ((16 : ℚ) ^ 2 + 0 ^ 2) = 16 := by
    have e : ((16 : ℚ) ^ 2 + 0 ^ 2) = 16 * 16 := by norm_num
    rw [e]
    show Rat.sqrt (16 * 16) = 16
    rw [Rat.sqrt_eq, abs_of_pos (by norm_num : (0 : ℚ) < 16)]
  have q48 : ratOps.sqrt ((48 : ℚ) ^ 2 + 0 ^ 2) = 48 := by
    have e : ((48 : ℚ) ^ 2 + 0 ^ 2) = 48 * 48 := by norm_num
    rw [e]
    show Rat.sqrt (48 * 48) = 48
    rw [Rat.sqrt_eq, abs_of_pos (by norm_num : (0 : ℚ) < 48)]
  have hat : ratOps.atan2 (0 : ℚ) 16 = 0 := by
    show atan2Q 0 16 = 0
    simp [atan2Q]
  refine ⟨Ig, Id, hgrad, ?_, ?_, ?_⟩
  · rw [hIg, if_pos (by norm_num), ix22, iy22, q16]
  · rw [hIg, if_pos (by norm_num), ix23, iy23, q48]
  · rw [hId, if_pos (by norm_num), ix22, iy22, hat]

/-- Where the stored direction is zero the suppression loop steps along the row: the offset is
the first table entry `(0, 1)`. -/
theorem cannyOffset_ratOps_zero (Id : Mat ℚ) (i j : Int) (h : Id.get i j = 0) :
    cannyOffset ratOps Id i j = (0, 1) := by
  have e : ratOps.lround (Id.get i j / ratOps.M_PI_4) = 0 := by
    rw [h, zero_div]
    show lroundQ 0 = 0
    simp only [lroundQ, le_refl, if_true, zero_add]
    rw [Int.floor_eq_zero_iff]
    constructor <;> norm_num
  unfold cannyOffset
  rw [e]
  rfl

/-- C11 at a failing input: on the 5×6 image with samples 0 in columns 0..3 and 16 in columns
4..5, position `(2, 2)` is outside the combined border and its magnitude 16 is below the
magnitude 48 of its neighbour `(2, 3)` along the quantized direction, yet the suppression loop,
which runs over `2 ≤ i < rows - 4`, never visits row 2 and the thinned magnitude stays 16. -/
theorem canny_suppress_skips_row :
    ∃ Ig Id thinned : Mat ℚ,
      cannyGradient ratOps GAUSSION_3x3 (stepImage 5 6 4 0 16) = some (Ig, Id) ∧
      cannyThinned ratOps GAUSSION_3x3 (stepImage 5 6 4 0 16) = some thinned ∧
      ((2 : Int) ≤ 2 ∧ (2 : Int) < ((stepImage 5 6 4 0 16).rows : Int) - 2
        ∧ (2 : Int) ≤ 2 ∧ (2 : Int) < ((stepImage 5 6 4 0 16).cols : Int) - 2) ∧
      ¬ cannyVisited (stepImage 5 6 4 0 16) 2 2 ∧
      cannyNeighbours ratOps Id 2 2 = ((2, 3), (2, 1)) ∧
      Ig.get 2 2 = 16 ∧ Ig.get 2 3 = 48 ∧ Ig.get 2 2 < Ig.get 2 3 ∧
      thinned.get 2 2 = 16 ∧ thinned.get 2 2 ≠ 0 := by
  obtain ⟨Ig, Id, hgrad, h22, h23, hid⟩ := canny_step_5x6_gradient
  obtain ⟨Ig2, Id2, hgrad2, hthin⟩ :=
    cannyThinned_eq ratOps GAUSSION_3x3 (stepImage 5 6 4 0 16) rfl GAUSSION_3x3_oddSized
      ratOps_directionInRange
  obtain ⟨e1, e2⟩ := Prod.mk.inj (Option.some.inj (hgrad2.symm.trans hgrad))
  subst e1 e2
  have hnv : ¬ ((2 ≤ (2 : Int) ∧ (2 : Int) < (((stepImage 5 6 4 0 16).rows : Nat) : Int) - 2 - 2)
      ∧ 2 ≤ (2 : Int) ∧ (2 : Int) < (((stepImage 5 6 4 0 16).cols : Nat) : Int)) := by
    simp only [stepImage]; omega
  have hthin22 : (16 : ℚ) = Ig2.px 2 2 := h22.symm
  refine ⟨Ig2, Id2, _, hgrad, hthin, ?_, hnv, ?_, h22, h23, ?_, ?_, ?_⟩
  · simp only [stepImage]; omega
  · unfold cannyNeighbours
    rw [cannyOffset_ratOps_zero Id2 2 2 hid]
    rfl
  · simp only [Mat.get, h22, h23]; norm_num
  · simp only [Mat.get, if_neg hnv, h22]
  · simp only [Mat.get, if_neg hnv, h22]; norm_num

/-- C17 at a failing input: on the all-zero 7×3 image the suppression loop visits `(2, 2)`, the
last column; the direction there is zero, the offset is `(0, 1)`, and the first neighbour read
is `(2, 3)`, whose column equals `cols = 3`. -/
theorem canny_suppress_reads_past_last_column :
    ∃ Ig Id : Mat ℚ,
      cannyGradient ratOps GAUSSION_3x3 (constImage 7 3 0) = some (Ig, Id) ∧
      cannyVisited (constImage 7 3 0) 2 2 ∧
      cannyNeighbours ratOps Id 2 2 = ((2, 3), (2, 1)) ∧
      ¬ ((3 : Int) < ((constImage 7 3 0).cols : Int)) := by
  obtain ⟨blurred, Ix, Iy, -, -, -, hgrad⟩ :=
    cannyGradient_eq ratOps GAUSSION_3x3 (constImage 7 3 0) rfl GAUSSION_3x3_oddSized
  refine ⟨_, _, hgrad, ?_, ?_, ?_⟩
  · unfold cannyVisited
    simp only [constImage]; omega
  · unfold cannyNeighbours
    rw [cannyOffset_ratOps_zero _ 2 2 (by
      simp only [Mat.get, constImage]
      rw [if_neg]
      omega)]
    rfl
  · simp only [constImage]; omega

/-- Inside the visited range the suppression loop zeroes a sample that is below one of its two
neighbours along the quantized direction. -/
theorem cannyThinned_visited (ops : FloatOps α) (G : Kernel α) (src : Mat Nat)
    (hch : src.channels = 1) (hG : G.oddSized) (hdir : ops.directionInRange) :
    ∃ Ig Id thinned : Mat α, cannyGradient ops G src = some (Ig, Id) ∧
      cannyThinned ops G src = some thinned ∧
      ∀ i j : Int, cannyVisited src i j → cannyBelowNeighbour ops Ig Id i j →
        thinned.get i j = 0 := by
  obtain ⟨Ig, Id, hgrad, hthin⟩ := cannyThinned_eq ops G src hch hG hdir
  refine ⟨Ig, Id, _, hgrad, hthin, ?_⟩
  intro i j hv hb
  unfold cannyVisited at hv
  simp only [Mat.get, if_pos hv, if_pos hb]

end SuppressRange

end filters

/-! ## Non-maximum suppression of a heatmap -/

namespace cv_basics

open filters

variable {α : Type} [LinearOrder α]

/-- Closed form of `setNeighborsToZero`: the samples of the window that lie inside the image
become zero, every other sample is kept. -/
theorem setNeighborsToZero_eq (img : Mat Nat) (row col radius : Int) :
    setNeighborsToZero img row col radius
      = { img with px := fun a b =>
            if (row - radius ≤ a ∧ a < row + radius + 1)
                ∧ col - radius ≤ b ∧ b < col + radius + 1
            then (if (0 ≤ a ∧ a < (img.rows : Int)) ∧ 0 ≤ b ∧ b < (img.cols : Int)
                  then 0 else img.px a b)
            else img.px a b } := by
  unfold setNeighborsToZero
  have hbody : ∀ (r c : Int) (out : Mat Nat),
      (if (0 ≤ r ∧ r < (img.rows : Int)) ∧ 0 ≤ c ∧ c < (img.cols : Int) then out.set r c 0
        else out)
        = out.set r c ((fun r c old =>
            if (0 ≤ r ∧ r < (img.rows : Int)) ∧ 0 ≤ c ∧ c < (img.cols : Int) then 0 else old)
            r c (out.px r c)) := by
    intro r c out
    split_ifs with h
    · simp only [h, and_self, if_true]
    · simp only [h, if_false, Mat.set_self]
  simp only [hbody]
  rw [forLoop_set_grid _ _ _ _ (fun r c old =>
    if (0 ≤ r ∧ r < (img.rows : Int)) ∧ 0 ≤ c ∧ c < (img.cols : Int) then 0 else old)]

/-- Closed form of `isLocalMax`: no position of the window inside the image holds a strictly
greater sample. -/
theorem isLocalMax_iff (img : Mat α) (row col radius : Int) :
    isLocalMax img row col radius = true ↔
      ∀ r c : Int, row - radius ≤ r → r < row + radius + 1 →
        col - radius ≤ c → c < col + radius + 1 →
        ¬ (((0 ≤ r ∧ r < (img.rows : Int)) ∧ 0 ≤ c ∧ c < (img.cols : Int))
            ∧ img.get row col < img.get r c) := by
  unfold isLocalMax
  rw [forLoop_flag _ _ _ (fun r => ∃ c : Int, (col - radius ≤ c ∧ c < col + radius + 1) ∧
      (((0 ≤ r ∧ r < (img.rows : Int)) ∧ 0 ≤ c ∧ c < (img.cols : Int))
        ∧ img.get row col < img.get r c))]
  · constructor
    · rintro ⟨-, h⟩ r c hr0 hr1 hc0 hc1 hbad
      exact h r hr0 hr1 ⟨c, ⟨hc0, hc1⟩, hbad⟩
    · intro h
      refine ⟨rfl, ?_⟩
      rintro r hr0 hr1 ⟨c, ⟨hc0, hc1⟩, hbad⟩
      exact h r c hr0 hr1 hc0 hc1 hbad
  · intro r b
    rw [forLoop_flag _ _ _ (fun c =>
      (((0 ≤ r ∧ r < (img.rows : Int)) ∧ 0 ≤ c ∧ c < (img.cols : Int))
        ∧ img.get row col < img.get r c))]
    · constructor
      · rintro ⟨hb, h⟩
        refine ⟨hb, ?_⟩
        rintro ⟨c, ⟨hc0, hc1⟩, hbad⟩
        exact h c hc0 hc1 hbad
      · rintro ⟨hb, h⟩
        exact ⟨hb, fun c hc0 hc1 hbad => h ⟨c, ⟨hc0, hc1⟩, hbad⟩⟩
    · intro c b
      split_ifs with hc
      · simp [hc]
      · simp [hc]

end cv_basics

namespace geometry

open filters cv_basics

section NmsGeneric

variable {α : Type} [LinearOrderedRing α]

/-- Every peak stored by the scan is an in-range position paired with its heatmap sample, and
that sample is not below `min_value`. -/
theorem nmsScan_peaks (isLocalMax : Mat α → Int → Int → Int → Bool)
    (setNeighborsToZero : Mat Nat → Int → Int → Int → Mat Nat)
    (heatmap : Mat α) (min_value radius : Int) :
    ∀ p ∈ (nmsScan isLocalMax setNeighborsToZero heatmap min_value radius).2,
      ((0 ≤ p.2.y ∧ p.2.y < (heatmap.rows : Int)) ∧ 0 ≤ p.2.x ∧ p.2.x < (heatmap.cols : Int))
        ∧ p.1 = heatmap.get p.2.y p.2.x ∧ ¬ (p.1 < (min_value : α)) := by
  unfold nmsScan
  apply forLoop_invariant (fun s : Mat Nat × List (α × Point2i) => ∀ p ∈ s.2,
      ((0 ≤ p.2.y ∧ p.2.y < (heatmap.rows : Int)) ∧ 0 ≤ p.2.x ∧ p.2.x < (heatmap.cols : Int))
        ∧ p.1 = heatmap.get p.2.y p.2.x ∧ ¬ (p.1 < (min_value : α)))
  · intro p hp; simp at hp
  intro i s hi0 hi1 hs
  apply forLoop_invariant (fun s : Mat Nat × List (α × Point2i) => ∀ p ∈ s.2,
      ((0 ≤ p.2.y ∧ p.2.y < (heatmap.rows : Int)) ∧ 0 ≤ p.2.x ∧ p.2.x < (heatmap.cols : Int))
        ∧ p.1 = heatmap.get p.2.y p.2.x ∧ ¬ (p.1 < (min_value : α)))
  · exact hs
  intro j s hj0 hj1 hs
  simp only []
  split_ifs with hskip hmax
  · exact hs
  · intro p hp
    rw [List.mem_append, List.mem_singleton] at hp
    rcases hp with hp | rfl
    · exact hs p hp
    · exact ⟨⟨⟨hi0, hi1⟩, hj0, hj1⟩, rfl, fun h => hskip (Or.inr h)⟩
  · exact hs

/-- With the channel assertion met, `nms` returns the positions of the sorted scan peaks. -/
theorem nms_eq (isLocalMax : Mat α → Int → Int → Int → Bool)
    (setNeighborsToZero : Mat Nat → Int → Int → Int → Mat Nat)
    (std_sort : List (α × Point2i) → List (α × Point2i))
    (heatmap : Mat α) (min_value radius : Int) (hch : heatmap.channels = 1) :
    nms isLocalMax setNeighborsToZero std_sort heatmap min_value radius
      = some ((std_sort
          (nmsScan isLocalMax setNeighborsToZero heatmap min_value radius).2).map
            fun peak => peak.2) := by
  unfold nms
  rw [if_neg (by simp [hch])]

/-- The positions returned by `nms`, taken in order, carry non-increasing heatmap samples. -/
theorem nms_scores_pairwise (isLocalMax : Mat α → Int → Int → Int → Bool)
    (setNeighborsToZero : Mat Nat → Int → Int → Int → Mat Nat)
    (std_sort : List (α × Point2i) → List (α × Point2i)) (hsort : SortsByScore std_sort)
    (heatmap : Mat α) (min_value radius : Int) :
    ((std_sort (nmsScan isLocalMax setNeighborsToZero heatmap min_value radius).2).map
      fun peak => peak.2).Pairwise
        (fun p q => heatmap.get q.y q.x ≤ heatmap.get p.y p.x) := by
  obtain ⟨hperm, hsorted⟩ :=
    hsort (nmsScan isLocalMax setNeighborsToZero heatmap min_value radius).2
  have hscan := nmsScan_peaks isLocalMax setNeighborsToZero heatmap min_value radius
  rw [List.pairwise_map]
  refine List.Pairwise.imp_of_mem ?_ hsorted
  intro a b ha hb hab
  rw [← (hscan a (hperm.mem_iff.mp ha)).2.1, ← (hscan b (hperm.mem_iff.mp hb)).2.1]
  exact not_lt.mp hab

/-- C13: every position `(x, y)` returned by `nms` has `heatmap[y, x] >= min_value`, and `nms`
returns the empty sequence when no sample of the heatmap is `>= min_value`. -/
theorem nms_respects_min_value (isLocalMax : Mat α → Int → Int → Int → Bool)
    (setNeighborsToZero : Mat Nat → Int → Int → Int → Mat Nat)
    (std_sort : List (α × Point2i) → List (α × Point2i)) (hsort : SortsByScore std_sort)
    (heatmap : Mat α) (min_value radius : Int) (hch : heatmap.channels = 1) :
    ∃ result, nms isLocalMax setNeighborsToZero std_sort heatmap min_value radius = some result ∧
      (∀ p ∈ result, (min_value : α) ≤ heatmap.get p.y p.x) ∧
      ((∀ i j : Int, 0 ≤ i → i < heatmap.rows → 0 ≤ j → j < heatmap.cols →
          heatmap.get i j < (min_value : α)) → result = []) := by
  refine ⟨_, nms_eq isLocalMax setNeighborsToZero std_sort heatmap min_value radius hch, ?_, ?_⟩
  · intro p hp
    obtain ⟨hperm, -⟩ := hsort (nmsScan isLocalMax setNeighborsToZero heatmap min_value radius).2
    rw [List.mem_map] at hp
    obtain ⟨a, ha, rfl⟩ := hp
    have h := nmsScan_peaks isLocalMax setNeighborsToZero heatmap min_value radius a
      (hperm.mem_iff.mp ha)
    rw [← h.2.1]
    exact not_lt.mp h.2.2
  · intro hall
    obtain ⟨hperm, -⟩ := hsort (nmsScan isLocalMax setNeighborsToZero heatmap min_value radius).2
    have hnil : (nmsScan isLocalMax setNeighborsToZero heatmap min_value radius).2 = [] := by
      apply List.eq_nil_iff_forall_not_mem.mpr
      intro a ha
      have h := nmsScan_peaks isLocalMax setNeighborsToZero heatmap min_value radius a ha
      have hlt := hall a.2.y a.2.x h.1.1.1 h.1.1.2 h.1.2.1 h.1.2.2
      rw [← h.2.1] at hlt
      exact h.2.2 hlt
    rw [hnil] at hperm ⊢
    rw [hperm.eq_nil]
    rfl

/-- Insertion sort by descending score meets the contract of the sort used by `nms`. -/
theorem stableSort_sortsByScore : SortsByScore (stableSort : List (α × Point2i) → _) := by
  intro l
  refine ⟨List.perm_insertionSort _ l, ?_⟩
  have h : List.Pairwise scoreGe (List.insertionSort scoreGe l) :=
    List.sorted_insertionSort scoreGe l
  exact h.imp (fun hab => not_lt.mpr hab)

theorem chebyshev_comm (p q : Point2i) : chebyshev p q = chebyshev q p := by
  unfold chebyshev
  rw [abs_sub_comm p.x q.x, abs_sub_comm p.y q.y]

/-- The scan with the helpers of `cv_basics` keeps the accepted peaks more than `radius`
apart: the mask is zero on the window of every accepted peak, so a later position inside such
a window is skipped. -/
theorem nmsScan_apart (heatmap : Mat α) (min_value radius : Int) :
    (nmsScan isLocalMax setNeighborsToZero heatmap min_value radius).2.Pairwise
      (fun p q => radius < chebyshev p.2 q.2) := by
  have key : (fun s : Mat Nat × List (α × Point2i) =>
      (s.1.rows = heatmap.rows ∧ s.1.cols = heatmap.cols) ∧
      (∀ p ∈ s.2, ∀ a b : Int,
        ((0 ≤ a ∧ a < (heatmap.rows : Int)) ∧ 0 ≤ b ∧ b < (heatmap.cols : Int)) →
        |a - p.2.y| ≤ radius → |b - p.2.x| ≤ radius → s.1.px a b = 0) ∧
      s.2.Pairwise (fun p q => radius < chebyshev p.2 q.2))
      (nmsScan isLocalMax setNeighborsToZero heatmap min_value radius) := by
    unfold nmsScan
    apply forLoop_invariant (fun s : Mat Nat × List (α × Point2i) =>
      (s.1.rows = heatmap.rows ∧ s.1.cols = heatmap.cols) ∧
      (∀ p ∈ s.2, ∀ a b : Int,
        ((0 ≤ a ∧ a < (heatmap.rows : Int)) ∧ 0 ≤ b ∧ b < (heatmap.cols : Int)) →
        |a - p.2.y| ≤ radius → |b - p.2.x| ≤ radius → s.1.px a b = 0) ∧
      s.2.Pairwise (fun p q => radius < chebyshev p.2 q.2))
    · exact ⟨⟨rfl, rfl⟩, fun p hp => by simp at hp, List.Pairwise.nil⟩
    intro i s hi0 hi1 hs
    apply forLoop_invariant (fun s : Mat Nat × List (α × Point2i) =>
      (s.1.rows = heatmap.rows ∧ s.1.cols = heatmap.cols) ∧
      (∀ p ∈ s.2, ∀ a b : Int,
        ((0 ≤ a ∧ a < (heatmap.rows : Int)) ∧ 0 ≤ b ∧ b < (heatmap.cols : Int)) →
        |a - p.2.y| ≤ radius → |b - p.2.x| ≤ radius → s.1.px a b = 0) ∧
      s.2.Pairwise (fun p q => radius < chebyshev p.2 q.2))
    · exact hs
    intro j s hj0 hj1 hs
    obtain ⟨⟨hrows, hcols⟩, hmask, hpw⟩ := hs
    simp only []
    split_ifs with hskip hmax
    · exact ⟨⟨hrows, hcols⟩, hmask, hpw⟩
    · rw [setNeighborsToZero_eq]
      refine ⟨⟨hrows, hcols⟩, ?_, ?_⟩
      · intro p hp a b hab ha hb
        simp only [hrows, hcols]
        rw [List.mem_append, List.mem_singleton] at hp
        rcases hp with hp | rfl
        · have hold := hmask p hp a b hab ha hb
          split_ifs <;> first | rfl | exact hold
        · simp only [] at ha hb
          rw [abs_le] at ha hb
          rw [if_pos (by omega), if_pos hab]
      · rw [List.pairwise_append]
        refine ⟨hpw, List.pairwise_singleton _ _, ?_⟩
        intro p hp q hq
        rw [List.mem_singleton] at hq
        subst hq
        by_contra hcon
        have hle : chebyshev p.2 ⟨j, i⟩ ≤ radius := not_lt.mp hcon
        unfold chebyshev at hle
        have h1 : |p.2.x - j| ≤ radius := le_trans (le_max_left _ _) hle
        have h2 : |p.2.y - i| ≤ radius := le_trans (le_max_right _ _) hle
        rw [abs_sub_comm] at h1 h2
        exact hskip (Or.inl (hmask p hp i j ⟨⟨hi0, hi1⟩, hj0, hj1⟩ h2 h1))
    · exact ⟨⟨hrows, hcols⟩, hmask, hpw⟩
  exact key.2.2

/-- C14: with `radius >= 0`, no two distinct positions returned by `nms` have coordinate
(Chebyshev) distance less than `radius` (their distance even exceeds `radius`): an accepted peak
clears the mask over its window, and a later position whose mask is cleared is skipped. -/
theorem nms_peaks_apart (std_sort : List (α × Point2i) → List (α × Point2i))
    (hsort : SortsByScore std_sort)
    (heatmap : Mat α) (min_value radius : Int) (hch : heatmap.channels = 1)
    (_hr : 0 ≤ radius) :
    ∃ result, nms isLocalMax setNeighborsToZero std_sort heatmap min_value radius = some result ∧
      ∀ p ∈ result, ∀ q ∈ result, p ≠ q →
        ¬ (chebyshev p q < radius) ∧ radius < chebyshev p q := by
  refine ⟨_, nms_eq isLocalMax setNeighborsToZero std_sort heatmap min_value radius hch, ?_⟩
  obtain ⟨hperm, -⟩ := hsort (nmsScan isLocalMax setNeighborsToZero heatmap min_value radius).2
  have hscan := nmsScan_apart heatmap min_value radius
  have hsorted : (std_sort (nmsScan isLocalMax setNeighborsToZero heatmap min_value radius).2).Pairwise
      (fun p q => radius < chebyshev p.2 q.2) :=
    (hperm.pairwise_iff (fun {x y} h => by rw [chebyshev_comm]; exact h)).mpr hscan
  have hmap : ((std_sort (nmsScan isLocalMax setNeighborsToZero heatmap min_value radius).2).map
      fun peak => peak.2).Pairwise (fun p q => radius < chebyshev p q) := by
    rw [List.pairwise_map]
    exact hsorted
  intro p hp q hq hne
  have h := hmap.forall (fun x y h => by rw [chebyshev_comm]; exact h) hp hq hne
  exact ⟨not_lt.mpr (le_of_lt h), h⟩

end NmsGeneric

section SinglePeak

variable {α : Type} [LinearOrderedRing α]

/-- A position of the single-peak heatmap other than the peak is not a local maximum once the
window reaches the peak. -/
theorem isLocalMax_off_peak (heatmap : Mat α) (i0 j0 : Int)
    (hi : 0 ≤ i0 ∧ i0 < (heatmap.rows : Int)) (hj : 0 ≤ j0 ∧ j0 < (heatmap.cols : Int))
    (hheat : ∀ i j : Int, 0 ≤ i → i < heatmap.rows → 0 ≤ j → j < heatmap.cols →
      heatmap.get i j = if i = i0 ∧ j = j0 then 100 else 0)
    (radius : Int) (hrows : (heatmap.rows : Int) ≤ radius) (hcols : (heatmap.cols : Int) ≤ radius)
    (i j : Int) (hi2 : 0 ≤ i ∧ i < (heatmap.rows : Int)) (hj2 : 0 ≤ j ∧ j < (heatmap.cols : Int))
    (hne : ¬ (i = i0 ∧ j = j0)) :
    ¬ (isLocalMax heatmap i j radius = true) := by
  rw [isLocalMax_iff]
  intro h
  apply h i0 j0 (by omega) (by omega) (by omega) (by omega)
  refine ⟨⟨hi, hj⟩, ?_⟩
  rw [hheat i j hi2.1 hi2.2 hj2.1 hj2.2, hheat i0 j0 hi.1 hi.2 hj.1 hj.2, if_neg hne,
    if_pos ⟨rfl, rfl⟩]
  norm_num

/-- The peak of the single-peak heatmap is a local maximum. -/
theorem isLocalMax_at_peak (heatmap : Mat α) (i0 j0 : Int)
    (hi : 0 ≤ i0 ∧ i0 < (heatmap.rows : Int)) (hj : 0 ≤ j0 ∧ j0 < (heatmap.cols : Int))
    (hheat : ∀ i j : Int, 0 ≤ i → i < heatmap.rows → 0 ≤ j → j < heatmap.cols →
      heatmap.get i j = if i = i0 ∧ j = j0 then 100 else 0)
    (radius : Int) :
    isLocalMax heatmap i0 j0 radius = true := by
  rw [isLocalMax_iff]
  rintro r c - - - - ⟨⟨hr, hc⟩, hlt⟩
  rw [hheat i0 j0 hi.1 hi.2 hj.1 hj.2, hheat r c hr.1 hr.2 hc.1 hc.2, if_pos ⟨rfl, rfl⟩] at hlt
  split_ifs at hlt
  · exact lt_irrefl _ hlt
  · exact absurd hlt (by norm_num)

/-- On the single-peak heatmap with `radius` at least the image size the scan stores exactly
the peak. -/
theorem nmsScan_single_peak (heatmap : Mat α) (i0 j0 : Int)
    (hi : 0 ≤ i0 ∧ i0 < (heatmap.rows : Int)) (hj : 0 ≤ j0 ∧ j0 < (heatmap.cols : Int))
    (hheat : ∀ i j : Int, 0 ≤ i → i < heatmap.rows → 0 ≤ j → j < heatmap.cols →
      heatmap.get i j = if i = i0 ∧ j = j0 then 100 else 0)
    (min_value radius : Int) (hmin : min_value ≤ 100)
    (hrows : (heatmap.rows : Int) ≤ radius) (hcols : (heatmap.cols : Int) ≤ radius) :
    (nmsScan isLocalMax setNeighborsToZero heatmap min_value radius).2
      = [((100 : α), ⟨j0, i0⟩)] := by
  have hmin2 : ¬ ((100 : α) < (min_value : α)) := by
    have : ((min_value : Int) : α) ≤ ((100 : Int) : α) := Int.cast_le.mpr hmin
    simpa using this
  have key : (fun (i : Int) (s : Mat Nat × List (α × Point2i)) =>
      (i ≤ i0 → s = (ones heatmap.rows heatmap.cols, [])) ∧
      (i0 < i → s.2 = [((100 : α), ⟨j0, i0⟩)] ∧
        ∀ a b : Int, ((0 ≤ a ∧ a < (heatmap.rows : Int)) ∧ 0 ≤ b ∧ b < (heatmap.cols : Int)) →
          s.1.px a b = 0))
      (heatmap.rows : Int) (nmsScan isLocalMax setNeighborsToZero heatmap min_value radius) := by
    unfold nmsScan
    apply forLoop_induction (fun (i : Int) (s : Mat Nat × List (α × Point2i)) =>
      (i ≤ i0 → s = (ones heatmap.rows heatmap.cols, [])) ∧
      (i0 < i → s.2 = [((100 : α), ⟨j0, i0⟩)] ∧
        ∀ a b : Int, ((0 ≤ a ∧ a < (heatmap.rows : Int)) ∧ 0 ≤ b ∧ b < (heatmap.cols : Int)) →
          s.1.px a b = 0))
    · exact Int.natCast_nonneg _
    · exact ⟨fun _ => rfl, fun h => absurd h (not_lt.mpr hi.1)⟩
    intro k s hk0 hk1 ⟨hinit, hdone⟩
    rcases lt_trichotomy k i0 with hlt | heq | hgt
    · -- rows above the peak: nothing is accepted
      have hs := hinit (le_of_lt hlt)
      subst hs
      refine ⟨fun _ => ?_, fun h => absurd h (by omega)⟩
      apply forLoop_invariant (fun s : Mat Nat × List (α × Point2i) =>
        s = (ones heatmap.rows heatmap.cols, []))
      · rfl
      intro j s hj0 hj1 hs
      subst hs
      simp only []
      split_ifs with hskip hmax
      · rfl
      · exact absurd hmax (isLocalMax_off_peak heatmap i0 j0 hi hj hheat radius hrows hcols
          k j ⟨hk0, hk1⟩ ⟨hj0, hj1⟩ (fun h => by omega))
      · rfl
    · -- the row of the peak
      subst heq
      have hs := hinit le_rfl
      subst hs
      refine ⟨fun h => absurd h (by omega), fun _ => ?_⟩
      have inner : (fun (j : Int) (s : Mat Nat × List (α × Point2i)) =>
          (j ≤ j0 → s = (ones heatmap.rows heatmap.cols, [])) ∧
          (j0 < j → s.2 = [((100 : α), ⟨j0, k⟩)] ∧
            ∀ a b : Int, ((0 ≤ a ∧ a < (heatmap.rows : Int)) ∧ 0 ≤ b
                ∧ b < (heatmap.cols : Int)) → s.1.px a b = 0))
          (heatmap.cols : Int)
          (forLoop 0 (heatmap.cols : Int) (fun j (s : Mat Nat × List (α × Point2i)) =>
            let score : α := heatmap.get k j
            if s.1.get k j = 0 ∨ score < (min_value : α) then s
            else
              let is_max : Bool := isLocalMax heatmap k j radius
              if is_max then (setNeighborsToZero s.1 k j radius, s.2 ++ [(score, ⟨j, k⟩)])
              else s) (ones heatmap.rows heatmap.cols, [])) := by
        apply forLoop_induction (fun (j : Int) (s : Mat Nat × List (α × Point2i)) =>
          (j ≤ j0 → s = (ones heatmap.rows heatmap.cols, [])) ∧
          (j0 < j → s.2 = [((100 : α), ⟨j0, k⟩)] ∧
            ∀ a b : Int, ((0 ≤ a ∧ a < (heatmap.rows : Int)) ∧ 0 ≤ b
                ∧ b < (heatmap.cols : Int)) → s.1.px a b = 0))
        · exact Int.natCast_nonneg _
        · exact ⟨fun _ => rfl, fun h => absurd h (not_lt.mpr hj.1)⟩
        intro j s hj0 hj1 ⟨hinit2, hdone2⟩
        rcases lt_trichotomy j j0 with hlt | heq | hgt
        · have hs := hinit2 (le_of_lt hlt)
          subst hs
          refine ⟨fun _ => ?_, fun h => absurd h (by omega)⟩
          simp only []
          split_ifs with hskip hmax
          · rfl
          · exact absurd hmax (isLocalMax_off_peak heatmap k j0 hi hj hheat radius hrows hcols
              k j ⟨hk0, hk1⟩ ⟨hj0, hj1⟩ (fun h => by omega))
          · rfl
        · subst heq
          have hs := hinit2 le_rfl
          subst hs
          refine ⟨fun h => absurd h (by omega), fun _ => ?_⟩
          have hscore : heatmap.get k j = 100 := by
            rw [hheat k j hi.1 hi.2 hj.1 hj.2, if_pos ⟨rfl, rfl⟩]
          have hmask : ¬ ((ones heatmap.rows heatmap.cols).get k j = 0) := by
            simp [ones, Mat.get]
          have hskip : ¬ ((ones heatmap.rows heatmap.cols).get k j = 0
              ∨ heatmap.get k j < (min_value : α)) := by
            rw [hscore]
            exact fun h => h.elim hmask hmin2
          simp only []
          rw [if_neg hskip, if_pos (isLocalMax_at_peak heatmap k j hi hj hheat radius), hscore]
          refine ⟨rfl, ?_⟩
          intro a b hab
          rw [setNeighborsToZero_eq]
          simp only [ones]
          rw [if_pos (by omega), if_pos hab]
        · obtain ⟨hpk, hz⟩ := hdone2 hgt
          have hskip : s.1.get k j = 0 ∨ heatmap.get k j < (min_value : α) :=
            Or.inl (hz k j ⟨⟨hk0, hk1⟩, hj0, hj1⟩)
          simp only []
          rw [if_pos hskip]
          exact ⟨fun h => absurd h (by omega), fun _ => ⟨hpk, hz⟩⟩
      exact inner.2 hj.2
    · -- rows below the peak: every position is masked
      obtain ⟨hpk, hz⟩ := hdone hgt
      refine ⟨fun h => absurd h (by omega), fun _ => ?_⟩
      apply forLoop_invariant (fun s : Mat Nat × List (α × Point2i) =>
        s.2 = [((100 : α), ⟨j0, i0⟩)] ∧
          ∀ a b : Int, ((0 ≤ a ∧ a < (heatmap.rows : Int)) ∧ 0 ≤ b ∧ b < (heatmap.cols : Int)) →
            s.1.px a b = 0)
      · exact ⟨hpk, hz⟩
      intro j s hj0 hj1 ⟨hpk2, hz2⟩
      have hskip : s.1.get k j = 0 ∨ heatmap.get k j < (min_value : α) :=
        Or.inl (hz2 k j ⟨⟨hk0, hk1⟩, hj0, hj1⟩)
      simp only []
      rw [if_pos hskip]
      exact ⟨hpk2, hz2⟩
  exact (key.2 hi.2).1

/-- C15: on a heatmap that is 0 everywhere except a single cell `(i0, j0)` holding 100, with
`radius >= max(rows, cols)` and `min_value <= 100`, `nms` returns exactly one position, the
point with `x = j0` (the column) and `y = i0` (the row). -/
theorem nms_single_peak (std_sort : List (α × Point2i) → List (α × Point2i))
    (hsort : SortsByScore std_sort) (heatmap : Mat α) (hch : heatmap.channels = 1)
    (i0 j0 : Int)
    (hi : 0 ≤ i0 ∧ i0 < (heatmap.rows : Int)) (hj : 0 ≤ j0 ∧ j0 < (heatmap.cols : Int))
    (hheat : ∀ i j : Int, 0 ≤ i → i < heatmap.rows → 0 ≤ j → j < heatmap.cols →
      heatmap.get i j = if i = i0 ∧ j = j0 then 100 else 0)
    (min_value radius : Int) (hmin : min_value ≤ 100)
    (hrad : ((max heatmap.rows heatmap.cols : Nat) : Int) ≤ radius) :
    nms isLocalMax setNeighborsToZero std_sort heatmap min_value radius
      = some [⟨j0, i0⟩] := by
  have hrows : (heatmap.rows : Int) ≤ radius :=
    le_trans (Int.ofNat_le.mpr (le_max_left _ _)) hrad
  have hcols : (heatmap.cols : Int) ≤ radius :=
    le_trans (Int.ofNat_le.mpr (le_max_right _ _)) hrad
  rw [nms_eq isLocalMax setNeighborsToZero std_sort heatmap min_value radius hch,
    nmsScan_single_peak heatmap i0 j0 hi hj hheat min_value radius hmin hrows hcols]
  obtain ⟨hperm, -⟩ := hsort [((100 : α), (⟨j0, i0⟩ : Point2i))]
  rw [List.perm_singleton.mp hperm]
  rfl

end SinglePeak

section NmsOrder

variable {α : Type} [LinearOrderedRing α]



/-- C16 (amended): the final sort of `nms` orders the peaks by score only: the returned
sequence is a rearrangement of the positions accepted by the row-major scan, and whenever two
returned positions have different scores the one with the higher score appears first.  The
order of positions with equal scores is left to `std::sort`. -/
theorem nms_order_up_to_ties (isLocalMax : Mat α → Int → Int → Int → Bool)
    (setNeighborsToZero : Mat Nat → Int → Int → Int → Mat Nat)
    (std_sort : List (α × Point2i) → List (α × Point2i)) (hsort : SortsByScore std_sort)
    (heatmap : Mat α) (min_value radius : Int) (hch : heatmap.channels = 1) :
    ∃ result, nms isLocalMax setNeighborsToZero std_sort heatmap min_value radius = some result ∧
      result.Perm ((nmsScan isLocalMax setNeighborsToZero heatmap min_value radius).2.map
        fun peak => peak.2) ∧
      ∀ p q : Point2i, [p, q].Sublist result →
        heatmap.get p.y p.x ≠ heatmap.get q.y q.x →
        heatmap.get q.y q.x < heatmap.get p.y p.x := by
  refine ⟨_, nms_eq isLocalMax setNeighborsToZero std_sort heatmap min_value radius hch, ?_, ?_⟩
  · exact (hsort _).1.map _
  · intro p q hsub hne
    have hpw := nms_scores_pairwise isLocalMax setNeighborsToZero std_sort hsort heatmap
      min_value radius
    have hle := List.pairwise_iff_forall_sublist.mp hpw hsub
    exact lt_of_le_of_ne hle (Ne.symm hne)

theorem nms_respects_min_value_witness :
    ∃ result, nms isLocalMax setNeighborsToZero stableSort twoPeaks 1 1 = some result ∧
      (∀ p ∈ result, ((1 : Int) : Int) ≤ twoPeaks.get p.y p.x) ∧
      ((∀ i j : Int, 0 ≤ i → i < twoPeaks.rows → 0 ≤ j → j < twoPeaks.cols →
          twoPeaks.get i j < ((1 : Int) : Int)) → result = []) :=
  nms_respects_min_value isLocalMax setNeighborsToZero stableSort stableSort_sortsByScore
    twoPeaks 1 1 rfl

theorem nms_peaks_apart_witness :
    ∃ result, nms isLocalMax setNeighborsToZero stableSort twoPeaks 1 1 = some result ∧
      ∀ p ∈ result, ∀ q ∈ result, p ≠ q →
        ¬ (chebyshev p q < 1) ∧ 1 < chebyshev p q :=
  nms_peaks_apart stableSort stableSort_sortsByScore twoPeaks 1 1 rfl (by decide)

theorem nms_single_peak_witness :
    nms isLocalMax setNeighborsToZero stableSort (singlePeak 4 5 2 3 : Mat Int) (-3) 5
      = some [⟨3, 2⟩] :=
  nms_single_peak stableSort stableSort_sortsByScore (singlePeak 4 5 2 3) rfl 2 3
    (by decide) (by decide) (fun _ _ _ _ _ _ => rfl) (-3) 5 (by decide) (by decide)

/-- On the peaks of `mixedPeaks` the library sort and insertion sort by descending score give the
same sequence. -/
theorem gnuSort_mixedPeaks :
    (nmsScan isLocalMax setNeighborsToZero mixedPeaks 1 1).2
        = [(3, ⟨0, 0⟩), (7, ⟨2, 0⟩), (5, ⟨4, 0⟩), (7, ⟨6, 0⟩)] ∧
      gnuSort (nmsScan isLocalMax setNeighborsToZero mixedPeaks 1 1).2
        = stableSort (nmsScan isLocalMax setNeighborsToZero mixedPeaks 1 1).2 ∧
      nms isLocalMax setNeighborsToZero stableSort mixedPeaks 1 1
        = some [⟨2, 0⟩, ⟨6, 0⟩, ⟨4, 0⟩, ⟨0, 0⟩] := by
  refine ⟨by decide, by decide, by decide⟩

theorem nms_order_up_to_ties_witness :
    ∃ result, nms isLocalMax setNeighborsToZero stableSort mixedPeaks 1 1 = some result ∧
      result.Perm ((nmsScan isLocalMax setNeighborsToZero mixedPeaks 1 1).2.map
        fun peak => peak.2) ∧
      ∀ p q : Point2i, [p, q].Sublist result →
        mixedPeaks.get p.y p.x ≠ mixedPeaks.get q.y q.x →
        mixedPeaks.get q.y q.x < mixedPeaks.get p.y p.x :=
  nms_order_up_to_ties isLocalMax setNeighborsToZero stableSort stableSort_sortsByScore
    mixedPeaks 1 1 rfl

set_option maxRecDepth 1000000 in
/-- C16 as stated fails: on the one-row heatmap of 33 columns with `5` at every even column and
`0` at every odd one, `min_value = 1`, `radius = 1`, the scan accepts the 17 positions
`x = 0, 2, ..., 32` in this order, all of score 5, and `std::sort` as implemented by GNU
libstdc++ returns them in the order `16, 32, 30, ..., 18, 0, 14, 12, ..., 2`: the position
`x = 16` precedes `x = 0`, which the scan met first. -/
theorem nms_tied_peaks_out_of_scan_order :
    (nmsScan isLocalMax setNeighborsToZero tiedPeaks 1 1).2
        = (List.range 17).map (fun k => ((5 : Int), (⟨2 * (k : Int), 0⟩ : Point2i))) ∧
      nms isLocalMax setNeighborsToZero gnuSort tiedPeaks 1 1
        = some [⟨16, 0⟩, ⟨32, 0⟩, ⟨30, 0⟩, ⟨28, 0⟩, ⟨26, 0⟩, ⟨24, 0⟩, ⟨22, 0⟩, ⟨20, 0⟩, ⟨18, 0⟩,
            ⟨0, 0⟩, ⟨14, 0⟩, ⟨12, 0⟩, ⟨10, 0⟩, ⟨8, 0⟩, ⟨6, 0⟩, ⟨4, 0⟩, ⟨2, 0⟩] ∧
      tiedPeaks.get 0 0 = tiedPeaks.get 0 16 := by
  refine ⟨by decide, by decide, by decide⟩

end NmsOrder

end geometry
